import Mathlib

/-!
TeenyBasic code generator (`compile.c`).

A shallow embedding of `power_of_2`, `is_constants`, `evaluate_constants` and
`compile_ast`, followed by theorems about the emitted assembly text.

Conventions of the embedding:

* `int64_t` values are `Int`; `+ - *` wrap around modulo `2^64` (`wrap64`), `/` and `%` are the
  truncating `Int.tdiv` and `Int.tmod`.  A division whose divisor is `0`, or whose quotient does
  not fit (`INT64_MIN / -1`), stops the program: `Fault.arithmetic`.
* `size_t` counters are `Nat` with `++` wrapping modulo `2^64` (`size_incr`).
* `printf` appends one line (without its newline) to `State.out`.
* Reading the `op` field of a node that is not a `BINARY_OP` node (the unchecked casts in
  `evaluate_constants` and in the `IF`/`WHILE` cases) has no defined result: `Fault.bad_cast`.
* The loop of `power_of_2` runs on fuel; `Fault.no_fuel` stands for a loop that has not
  finished, and `power_of_2_total` shows that this never happens.
* A run that stops with a fault is `Except.error`; the text it had printed before is dropped.
-/

namespace TeenyBasic

/-! ## Data model -/

/-- Modelled from the spec: the node types of `compile.h` (absent from the sources), one
constructor per `node_type_t` tag used by `compile.c`, with the fields `compile.c` reads.
`other` is a node whose `type` field is none of the eight tags the dispatcher tests. -/
inductive Node where
  | num (value : Int)
  | print (expr : Node)
  | sequence (statements : List Node)
  | binary_op (op : Char) (left right : Node)
  | var (name : Char)
  | let_ (var : Char) (value : Node)
  | if_ (condition if_branch : Node) (else_branch : Option Node)
  | while_ (condition body : Node)
  | other (type : Nat)

deriving instance DecidableEq for Except

/-- Ways in which a run stops without returning. -/
inductive Fault where
  | arithmetic
  | bad_cast
  | no_fuel
  deriving DecidableEq, Repr

/-- State of the process: the two global counters and the text written to standard output.
The fields `taken_if` and `taken_while` are observation logs: they record, in order, each value
assigned to `local_counter_if` / `local_counter_while`; nothing reads them. -/
structure State where
  global_counter_if : Nat
  global_counter_while : Nat
  out : List String
  taken_if : List Nat
  taken_while : List Nat
  deriving DecidableEq, Repr

/-! ## Machine arithmetic and `printf` conversions -/

/-- Smallest `int64_t`. -/
def INT64_MIN : Int := -(2 ^ 63)

/-- Largest `int64_t`. -/
def INT64_MAX : Int := 2 ^ 63 - 1

/-- Membership in the range of `int64_t`. -/
def in_int64 (v : Int) : Prop := INT64_MIN ≤ v ∧ v ≤ INT64_MAX

instance (v : Int) : Decidable (in_int64 v) := by unfold in_int64; infer_instance

/-- Two's complement reduction of an integer to `int64_t`. -/
def wrap64 (x : Int) : Int := (x + 2 ^ 63) % 2 ^ 64 - 2 ^ 63

/-- The bit pattern of an `int64_t` read as `unsigned long` (what `%lu` prints). -/
def to_u64 (v : Int) : Nat := (v % 2 ^ 64).toNat

/-- The increment `++c` of a `size_t`. -/
def size_incr (c : Nat) : Nat := (c + 1) % 2 ^ 64

/-- Conversion `%lu` / `%zu`: unsigned decimal. -/
def fmt_dec (n : Nat) : String := toString n

/-- Conversion `%02x` of an `int`: the value as `unsigned int`, in lower-case hexadecimal,
zero-padded to at least two digits. -/
def fmt_02x (v : Int) : String :=
  let digits := Nat.toDigits 16 (v % 2 ^ 32).toNat
  String.mk (List.replicate (2 - digits.length) '0' ++ digits)

/-- The expression `8 * (name - 'A' + 1)`. -/
def slot_offset (name : Char) : Int := 8 * ((name.toNat : Int) - ('A'.toNat : Int) + 1)

/-! ## Text of each `printf` -/

def line_mov_imm (value : Int) : String := "mov $" ++ fmt_dec (to_u64 value) ++ ", %rdi"
def line_sal (shift : Nat) : String := "sal $" ++ fmt_dec shift ++ ", %rdi"
def line_load (name : Char) : String := "mov -0x" ++ fmt_02x (slot_offset name) ++ "(%rbp), %rdi"
def line_store (var : Char) : String := "mov %rdi, -0x" ++ fmt_02x (slot_offset var) ++ "(%rbp)"
def line_jne_if (n : Nat) : String := "jne IF_ELSE_label" ++ fmt_dec n
def line_jng_if (n : Nat) : String := "jng IF_ELSE_label" ++ fmt_dec n
def line_jnl_if (n : Nat) : String := "jnl IF_ELSE_label" ++ fmt_dec n
def line_if_label (n : Nat) : String := "IF_label" ++ fmt_dec n ++ ":"
def line_jmp_endif (n : Nat) : String := "jmp ENDIF" ++ fmt_dec n
def line_if_else_label (n : Nat) : String := "IF_ELSE_label" ++ fmt_dec n ++ ":"
def line_endif (n : Nat) : String := "ENDIF" ++ fmt_dec n ++ ":"
def line_while_label (n : Nat) : String := "WHILE_label" ++ fmt_dec n ++ ":"
def line_jne_while (n : Nat) : String := "jne ENDWHILE_label" ++ fmt_dec n
def line_jng_while (n : Nat) : String := "jng ENDWHILE_label" ++ fmt_dec n
def line_jnl_while (n : Nat) : String := "jnl ENDWHILE_label" ++ fmt_dec n
def line_jmp_while (n : Nat) : String := "jmp WHILE_label" ++ fmt_dec n
def line_endwhile (n : Nat) : String := "ENDWHILE_label" ++ fmt_dec n ++ ":"

/-- One `printf` call: append a line to the output. -/
def emit (line : String) (st : State) : State := { st with out := st.out ++ [line] }

/-- Several consecutive `printf` calls. -/
def emit_all (lines : List String) (st : State) : State := { st with out := st.out ++ lines }

/-! ## `power_of_2` -/

/-- The `while (value != 1)` loop of `power_of_2`; one unit of fuel per evaluation of the loop
test. -/
def power_of_2_loop : Nat → Int → Nat → Option Nat
  | 0, _, _ => none
  | fuel + 1, value, power =>
    if value ≠ 1 then
      if Int.tmod value 2 ≠ 0 then
        some 0
      else
        power_of_2_loop fuel (Int.tdiv value 2) (power + 1)
    else
      some power

/-- The function `power_of_2`.  The loop gets `|value|` units of fuel; `none` would mean that
the loop has not finished within that many tests. -/
def power_of_2 (value : Int) : Option Nat :=
  if value ≠ 0 then
    power_of_2_loop value.natAbs value 0
  else
    some 0

/-! ## `is_constants` and `evaluate_constants` -/

/-- The function `is_constants`. -/
def is_constants : Node → Bool
  | .num _ => true
  | .binary_op _ left right =>
    let x := is_constants left
    let y := is_constants right
    if x && y then true else false
  | _ => false

/-- The C expression `val_left / val_right` on `int64_t`. -/
def c_div (val_left val_right : Int) : Except Fault Int :=
  if val_right = 0 ∨ (val_left = INT64_MIN ∧ val_right = -1) then
    .error .arithmetic
  else
    .ok (Int.tdiv val_left val_right)

/-- The function `evaluate_constants`.  Its `else` branch casts every node that is not `NUM`
to `binary_node_t`. -/
def evaluate_constants : Node → Except Fault Int
  | .num value => .ok value
  | .binary_op op left right =>
    match evaluate_constants right with
    | .error f => .error f
    | .ok val_right =>
      match evaluate_constants left with
      | .error f => .error f
      | .ok val_left =>
        if op = '+' then .ok (wrap64 (val_left + val_right))
        else if op = '-' then .ok (wrap64 (val_left - val_right))
        else if op = '*' then .ok (wrap64 (val_left * val_right))
        else if op = '/' then c_div val_left val_right
        else .ok 0
  | _ => .error .bad_cast

/-! ## `compile_ast` -/

/-- The read `((binary_node_t *) condition)->op` in the `IF` and `WHILE` cases. -/
def condition_op : Node → Except Fault Char
  | .binary_op op _ _ => .ok op
  | _ => .error .bad_cast

/-- The operator instructions that end the general case of `BINARY_OP`. -/
def operator_lines (operation : Char) : List String :=
  if operation = '+' then ["add %r8, %rdi"]
  else if operation = '-' then ["sub %r8, %rdi"]
  else if operation = '*' then ["imul %r8, %rdi"]
  else if operation = '/' then ["mov %rdi, %rax", "cqto", "idiv %r8", "mov %rax, %rdi"]
  else ["cmp %r8, %rdi"]

/-- The conditional jump of an `IF`, none when the operator is not a comparison. -/
def if_jump_lines (operation : Char) (local_counter_if : Nat) : List String :=
  if operation = '=' then [line_jne_if local_counter_if]
  else if operation = '>' then [line_jng_if local_counter_if]
  else if operation = '<' then [line_jnl_if local_counter_if]
  else []

/-- The conditional jump of a `WHILE`, none when the operator is not a comparison. -/
def while_jump_lines (operation : Char) (local_counter_while : Nat) : List String :=
  if operation = '=' then [line_jne_while local_counter_while]
  else if operation = '>' then [line_jng_while local_counter_while]
  else if operation = '<' then [line_jnl_while local_counter_while]
  else []

mutual
/-- The function `compile_ast`: the returned `Bool` is its result, the returned state holds the
counters and the output after the call.  The results of the recursive calls are discarded, as in
the source. -/
def compile_ast : Node → State → Except Fault (Bool × State)
  | .num value, st => .ok (true, emit (line_mov_imm value) st)
  | .print expr, st =>
    match compile_ast expr st with
    | .error f => .error f
    | .ok (_, st1) => .ok (true, emit "call print_int" st1)
  | .sequence statements, st =>
    match compile_statements statements st with
    | .error f => .error f
    | .ok st1 => .ok (true, st1)
  | .binary_op op left right, st =>
    if is_constants (.binary_op op left right) then
      match evaluate_constants (.binary_op op left right) with
      | .error f => .error f
      | .ok constant_value => .ok (true, emit (line_mov_imm constant_value) st)
    else
      -- the block that may set `shift_flag`
      let shifted : Except Fault (Bool × State) :=
        if op = '*' then
          if is_constants right then
            match evaluate_constants right with
            | .error f => .error f
            | .ok value =>
              match power_of_2 value with
              | none => .error .no_fuel
              | some shift =>
                if shift ≠ 0 then
                  match compile_ast left st with
                  | .error f => .error f
                  | .ok (_, st1) => .ok (true, emit (line_sal shift) st1)
                else .ok (false, st)
          else .ok (false, st)
        else .ok (false, st)
      match shifted with
      | .error f => .error f
      | .ok (shift_flag, st1) =>
        if shift_flag = false then
          match compile_ast right st1 with
          | .error f => .error f
          | .ok (_, st2) =>
            match compile_ast left (emit "push %rdi" st2) with
            | .error f => .error f
            | .ok (_, st3) => .ok (true, emit_all (operator_lines op) (emit "pop %r8" st3))
        else .ok (true, st1)
  | .var name, st => .ok (true, emit (line_load name) st)
  | .let_ var value, st =>
    match compile_ast value st with
    | .error f => .error f
    | .ok (_, st1) => .ok (true, emit (line_store var) st1)
  | .if_ condition if_branch else_branch, st =>
    let local_counter_if := size_incr st.global_counter_if
    let st0 := { st with global_counter_if := local_counter_if,
                         taken_if := st.taken_if ++ [local_counter_if] }
    match compile_ast condition st0 with
    | .error f => .error f
    | .ok (_, st1) =>
      match condition_op condition with
      | .error f => .error f
      | .ok operation =>
        let st2 := emit (line_if_label local_counter_if)
          (emit_all (if_jump_lines operation local_counter_if) st1)
        match compile_ast if_branch st2 with
        | .error f => .error f
        | .ok (_, st3) =>
          let st4 := emit (line_if_else_label local_counter_if)
            (emit (line_jmp_endif local_counter_if) st3)
          match compile_else else_branch st4 with
          | .error f => .error f
          | .ok st5 => .ok (true, emit (line_endif local_counter_if) st5)
  | .while_ condition body, st =>
    let local_counter_while := size_incr st.global_counter_while
    let st0 := emit (line_while_label local_counter_while)
      { st with global_counter_while := local_counter_while,
                taken_while := st.taken_while ++ [local_counter_while] }
    match compile_ast condition st0 with
    | .error f => .error f
    | .ok (_, st1) =>
      match condition_op condition with
      | .error f => .error f
      | .ok operation =>
        match compile_ast body (emit_all (while_jump_lines operation local_counter_while) st1) with
        | .error f => .error f
        | .ok (_, st2) =>
          .ok (true, emit (line_endwhile local_counter_while)
            (emit (line_jmp_while local_counter_while) st2))
  | .other _, st => .ok (false, st)
/-- The statement `if (if_node->else_branch != NULL) compile_ast(if_node->else_branch);`. -/
def compile_else : Option Node → State → Except Fault State
  | none, st => .ok st
  | some else_node, st =>
    match compile_ast else_node st with
    | .error f => .error f
    | .ok (_, st1) => .ok st1
/-- The `for` loop of the `SEQUENCE` case. -/
def compile_statements : List Node → State → Except Fault State
  | [], st => .ok st
  | statement :: rest, st =>
    match compile_ast statement st with
    | .error f => .error f
    | .ok (_, st1) => compile_statements rest st1
end

/-- A state with both counters at `0` and nothing printed: the state at program start. -/
def State.initial : State := ⟨0, 0, [], [], []⟩

/-! ## Constant arithmetic trees, as the specification describes them -/

/-- The arithmetic operators `+ - * /`. -/
def is_arith_op (op : Char) : Bool := op == '+' || op == '-' || op == '*' || op == '/'

/-- Trees built only from `NumberLiteral` leaves (holding 64-bit signed values) and the
arithmetic operators. -/
def arith_tree : Node → Bool
  | .num value => decide (in_int64 value)
  | .binary_op op left right => is_arith_op op && arith_tree left && arith_tree right
  | _ => false

/-- Value of an arithmetic tree under 64-bit signed wrap-around arithmetic with division
truncating toward zero (a quotient by `0` is taken as `0` here; see `no_zero_divisor`). -/
def arith_value : Node → Int
  | .num value => value
  | .binary_op op left right =>
    if op = '+' then wrap64 (arith_value left + arith_value right)
    else if op = '-' then wrap64 (arith_value left - arith_value right)
    else if op = '*' then wrap64 (arith_value left * arith_value right)
    else if op = '/' then wrap64 (Int.tdiv (arith_value left) (arith_value right))
    else 0
  | _ => 0

/-- No division in the tree has a divisor whose value is `0`. -/
def no_zero_divisor : Node → Bool
  | .binary_op op left right =>
    no_zero_divisor left && no_zero_divisor right && !(op == '/' && arith_value right == 0)
  | _ => true

/-- No division in the tree divides `INT64_MIN` by `-1`. -/
def no_overflowing_division : Node → Bool
  | .binary_op op left right =>
    no_overflowing_division left && no_overflowing_division right &&
      !(op == '/' && arith_value left == INT64_MIN && arith_value right == -1)
  | _ => true

/-- The tree `((0 - 9223372036854775807) - 1) / (0 - 1)`, that is `INT64_MIN / -1`. -/
def min_over_minus_one : Node :=
  .binary_op '/'
    (.binary_op '-' (.binary_op '-' (.num 0) (.num 9223372036854775807)) (.num 1))
    (.binary_op '-' (.num 0) (.num 1))

/-! ## Variable slots, as the specification describes them -/

/-- The variable names `A` .. `Z`. -/
def letters : List Char := "ABCDEFGHIJKLMNOPQRSTUVWXYZ".toList

/-- Alphabet index of a letter, `A = 0` .. `Z = 25`. -/
def letter_index (name : Char) : Nat := name.toNat - 65

/-- Frame offset of the slot of a letter: `8 * (index + 1)`. -/
def frame_offset (name : Char) : Nat := 8 * (letter_index name + 1)

/-- A number below 256 written as two hexadecimal digits. -/
def hex2 (n : Nat) : String := String.mk [Nat.digitChar (n / 16), Nat.digitChar (n % 16)]

/-! ## Label definition lines and node counts -/

/-- The five kinds of label definition line. -/
inductive LabelKind where
  | if_label
  | if_else_label
  | endif
  | while_label
  | endwhile
  deriving DecidableEq, Repr

/-- The text before the number in a label definition line. -/
def LabelKind.stem : LabelKind → String
  | .if_label => "IF_label"
  | .if_else_label => "IF_ELSE_label"
  | .endif => "ENDIF"
  | .while_label => "WHILE_label"
  | .endwhile => "ENDWHILE_label"

/-- The label definition line of a kind and an id. -/
def label_line (kind : LabelKind) (n : Nat) : String := kind.stem ++ fmt_dec n ++ ":"

/-- Whether a kind of label belongs to `IF` nodes (else to `WHILE` nodes). -/
def LabelKind.of_if : LabelKind → Bool
  | .if_label => true
  | .if_else_label => true
  | .endif => true
  | .while_label => false
  | .endwhile => false

/-- The first four characters of a line. -/
def head4 (line : String) : List Char := line.data.take 4

/-- Whether a line starts the way a label definition line does. -/
def has_label_head (line : String) : Bool :=
  head4 line ∈ ["IF_l".data, "IF_E".data, "ENDI".data, "WHIL".data, "ENDW".data]

mutual
/-- Number of `IF` nodes in a tree. -/
def count_if : Node → Nat
  | .num _ => 0
  | .print expr => count_if expr
  | .sequence statements => count_if_list statements
  | .binary_op _ left right => count_if left + count_if right
  | .var _ => 0
  | .let_ _ value => count_if value
  | .if_ condition if_branch else_branch =>
    1 + count_if condition + count_if if_branch + count_if_option else_branch
  | .while_ condition body => count_if condition + count_if body
  | .other _ => 0
/-- Number of `IF` nodes in a list of trees. -/
def count_if_list : List Node → Nat
  | [] => 0
  | statement :: rest => count_if statement + count_if_list rest
/-- Number of `IF` nodes in an optional tree. -/
def count_if_option : Option Node → Nat
  | none => 0
  | some else_node => count_if else_node
end

mutual
/-- Number of `WHILE` nodes in a tree. -/
def count_while : Node → Nat
  | .num _ => 0
  | .print expr => count_while expr
  | .sequence statements => count_while_list statements
  | .binary_op _ left right => count_while left + count_while right
  | .var _ => 0
  | .let_ _ value => count_while value
  | .if_ condition if_branch else_branch =>
    count_while condition + count_while if_branch + count_while_option else_branch
  | .while_ condition body => 1 + count_while condition + count_while body
  | .other _ => 0
/-- Number of `WHILE` nodes in a list of trees. -/
def count_while_list : List Node → Nat
  | [] => 0
  | statement :: rest => count_while statement + count_while_list rest
/-- Number of `WHILE` nodes in an optional tree. -/
def count_while_option : Option Node → Nat
  | none => 0
  | some else_node => count_while else_node
end

/-- How often the label line of `kind` and id `n` is due when the `IF` ids `a .. a + ki - 1`
and the `WHILE` ids `a' .. a' + kw - 1` have been taken. -/
def expected_count (kind : LabelKind) (n a ki a' kw : Nat) : Nat :=
  if kind.of_if then (if a ≤ n ∧ n < a + ki then 1 else 0)
  else (if a' ≤ n ∧ n < a' + kw then 1 else 0)

/-- What a stretch of a run does to the state when it takes `ki` `IF` ids and `kw` `WHILE` ids:
both counters advance by these numbers, the ids logged are the next `ki` (`kw`) numbers in
order, the output grows by some lines `code`, and `f kind n` tells how often `code` holds the
label line of `kind` and `n`. -/
structure Stretch (st st' : State) (ki kw : Nat) (f : LabelKind → Nat → Nat) : Prop where
  counter_if : st'.global_counter_if = st.global_counter_if + ki
  counter_while : st'.global_counter_while = st.global_counter_while + kw
  taken_if : st'.taken_if = st.taken_if ++ List.range' (st.global_counter_if + 1) ki
  taken_while : st'.taken_while = st.taken_while ++ List.range' (st.global_counter_while + 1) kw
  out : ∃ code, st'.out = st.out ++ code ∧ ∀ kind n, code.count (label_line kind n) = f kind n

/-- A stretch that defines each label of each id it takes exactly once, and no other label:
what the compilation of a whole node is shown to be. -/
def Advance (st st' : State) (ki kw : Nat) : Prop :=
  Stretch st st' ki kw (fun kind n =>
    expected_count kind n (st.global_counter_if + 1) ki (st.global_counter_while + 1) kw)

/-- The state right after `++global_counter_if; local_counter_if = global_counter_if;`. -/
def enter_if (st : State) : State :=
  { st with global_counter_if := size_incr st.global_counter_if,
            taken_if := st.taken_if ++ [size_incr st.global_counter_if] }

/-- The state right after `++global_counter_while; local_counter_while = global_counter_while;`. -/
def enter_while (st : State) : State :=
  { st with global_counter_while := size_incr st.global_counter_while,
            taken_while := st.taken_while ++ [size_incr st.global_counter_while] }

/-- The property proved of every node by induction: a completed run that cannot wrap a counter
is an `Advance` by the numbers of `IF` and `WHILE` nodes of the tree. -/
def RunAdvances (node : Node) : Prop :=
  ∀ st b st', compile_ast node st = .ok (b, st') →
    st.global_counter_if + count_if node < 2 ^ 64 →
    st.global_counter_while + count_while node < 2 ^ 64 →
    Advance st st' (count_if node) (count_while node)

/-- A program with two `IF` nodes in sequence, the second holding a `WHILE` whose body is a
third `IF`. -/
def sample_program : Node :=
  .sequence [
    .if_ (.binary_op '=' (.var 'A') (.num 1)) (.print (.var 'A')) none,
    .if_ (.binary_op '>' (.var 'B') (.var 'A'))
      (.while_ (.binary_op '<' (.var 'A') (.num 9))
        (.if_ (.binary_op '=' (.var 'C') (.num 0)) (.let_ 'A' (.num 9)) (some (.print (.num 2)))))
      none]

/-- The state in which `compile_ast sample_program` leaves a fresh process. -/
def sample_result : State :=
  { global_counter_if := 3
    global_counter_while := 1
    out := ["mov $1, %rdi", "push %rdi", "mov -0x08(%rbp), %rdi", "pop %r8", "cmp %r8, %rdi",
      "jne IF_ELSE_label1", "IF_label1:", "mov -0x08(%rbp), %rdi", "call print_int",
      "jmp ENDIF1", "IF_ELSE_label1:", "ENDIF1:",
      "mov -0x08(%rbp), %rdi", "push %rdi", "mov -0x10(%rbp), %rdi", "pop %r8", "cmp %r8, %rdi",
      "jng IF_ELSE_label2", "IF_label2:", "WHILE_label1:", "mov $9, %rdi", "push %rdi",
      "mov -0x08(%rbp), %rdi", "pop %r8", "cmp %r8, %rdi", "jnl ENDWHILE_label1",
      "mov $0, %rdi", "push %rdi", "mov -0x18(%rbp), %rdi", "pop %r8", "cmp %r8, %rdi",
      "jne IF_ELSE_label3", "IF_label3:", "mov $9, %rdi", "mov %rdi, -0x08(%rbp)",
      "jmp ENDIF3", "IF_ELSE_label3:", "mov $2, %rdi", "call print_int", "ENDIF3:",
      "jmp WHILE_label1", "ENDWHILE_label1:", "jmp ENDIF2", "IF_ELSE_label2:", "ENDIF2:"]
    taken_if := [1, 2, 3]
    taken_while := [1] }

/-! ## Recognised nodes and trees on which no fault can occur -/

/-- Whether the type of a node is one of the eight that `compile_ast` tests for. -/
def recognised : Node → Bool
  | .other _ => false
  | _ => true

/-- Whether `evaluate_constants` returns a value on a tree. -/
def folds (t : Node) : Bool :=
  match evaluate_constants t with
  | .ok _ => true
  | .error _ => false

/-- Whether a node is a `BINARY_OP` node. -/
def is_binary_op : Node → Bool
  | .binary_op _ _ _ => true
  | _ => false

mutual
/-- Trees on which neither kind of fault can occur: every constant `BINARY_OP` subtree that
gets folded has a fold without division fault, and every `IF`/`WHILE` condition is a
`BINARY_OP` node. -/
def fault_free : Node → Bool
  | .num _ => true
  | .print expr => fault_free expr
  | .sequence statements => fault_free_list statements
  | .binary_op op left right =>
    if is_constants (.binary_op op left right) then folds (.binary_op op left right)
    else fault_free left && fault_free right
  | .var _ => true
  | .let_ _ value => fault_free value
  | .if_ condition if_branch else_branch =>
    is_binary_op condition && fault_free condition && fault_free if_branch &&
      fault_free_option else_branch
  | .while_ condition body => is_binary_op condition && fault_free condition && fault_free body
  | .other _ => true
/-- The trees of a list are all `fault_free`. -/
def fault_free_list : List Node → Bool
  | [] => true
  | statement :: rest => fault_free statement && fault_free_list rest
/-- An optional tree is `fault_free` when present. -/
def fault_free_option : Option Node → Bool
  | none => true
  | some else_node => fault_free else_node
end

/-- An `IF` whose condition `1 = 1` has two constant operands. -/
def constant_condition_if : Node :=
  .if_ (.binary_op '=' (.num 1) (.num 1)) (.print (.num 7)) none

/-- The constant tree `1 / 0`. -/
def one_over_zero : Node := .binary_op '/' (.num 1) (.num 0)

/-! ## Division by zero in a constant tree, and eligibility for the shift -/

/-- Whether a tree contains a `/` node whose right operand `evaluate_constants` evaluates
to `0`. -/
def has_zero_division : Node → Bool
  | .binary_op op left right =>
    (op == '/' && (match evaluate_constants right with
                   | .ok v => v == 0
                   | .error _ => false))
      || has_zero_division left || has_zero_division right
  | _ => false

/-- Whether a `BINARY_OP` node with this operator and right operand takes the shift path: the
operator is `*`, the right operand is constant, and `power_of_2` of its value is not `0`. -/
def shift_eligible (op : Char) (right : Node) : Bool :=
  op == '*' && is_constants right &&
    (match evaluate_constants right with
     | .ok v => (match power_of_2 v with
                 | some k => k != 0
                 | none => false)
     | .error _ => false)

/-! ## The instructions `sal` and `imul` of the target machine -/

/-- Effect of `sal $k, %rdi` on the 64-bit content of `%rdi`: the bits move left by `k` places
and those beyond bit 63 are lost. -/
def sal64 (k : Nat) (rdi : Nat) : Nat := (rdi <<< k) % 2 ^ 64

/-- Effect of `imul %r8, %rdi` on the 64-bit content of `%rdi`: the low 64 bits of the
product. -/
def imul64 (r8 rdi : Nat) : Nat := (rdi * r8) % 2 ^ 64

/-- The constant tree `(2 * 3) + (4 / (1 - 1))`, with a division by zero below the root. -/
def zero_division_tree : Node :=
  .binary_op '+' (.binary_op '*' (.num 2) (.num 3))
    (.binary_op '/' (.num 4) (.binary_op '-' (.num 1) (.num 1)))

/-! ## Completed runs as a relation -/

/-- The steps of a completed run of `compile_ast`, one rule per path through the function:
`Run node st st'` relates the state `st` before the call to the state `st'` after it.
`run_of_compile_ast` shows that every completed run of `compile_ast` follows these rules. -/
inductive Run : Node → State → State → Prop where
  | num (value : Int) (st : State) : Run (.num value) st (emit (line_mov_imm value) st)
  | print {expr : Node} {st st1 : State} :
    Run expr st st1 → Run (.print expr) st (emit "call print_int" st1)
  | sequence_nil (st : State) : Run (.sequence []) st st
  | sequence_cons {statement : Node} {rest : List Node} {st st1 st2 : State} :
    Run statement st st1 → Run (.sequence rest) st1 st2 →
    Run (.sequence (statement :: rest)) st st2
  | fold {op : Char} {left right : Node} (st : State) {c : Int} :
    is_constants (.binary_op op left right) = true →
    evaluate_constants (.binary_op op left right) = .ok c →
    Run (.binary_op op left right) st (emit (line_mov_imm c) st)
  | shift {left right : Node} {st st1 : State} {v : Int} {k : Nat} :
    is_constants (.binary_op '*' left right) = false → is_constants right = true →
    evaluate_constants right = .ok v → power_of_2 v = some k → k ≠ 0 →
    Run left st st1 → Run (.binary_op '*' left right) st (emit (line_sal k) st1)
  | general {op : Char} {left right : Node} {st st2 st3 : State} :
    is_constants (.binary_op op left right) = false →
    Run right st st2 → Run left (emit "push %rdi" st2) st3 →
    Run (.binary_op op left right) st (emit_all (operator_lines op) (emit "pop %r8" st3))
  | var (name : Char) (st : State) : Run (.var name) st (emit (line_load name) st)
  | let_ {var : Char} {value : Node} {st st1 : State} :
    Run value st st1 → Run (.let_ var value) st (emit (line_store var) st1)
  | if_none {condition if_branch : Node} {st st1 st3 : State} {operation : Char} :
    condition_op condition = .ok operation →
    Run condition (enter_if st) st1 →
    Run if_branch (emit (line_if_label (size_incr st.global_counter_if))
      (emit_all (if_jump_lines operation (size_incr st.global_counter_if)) st1)) st3 →
    Run (.if_ condition if_branch none) st
      (emit (line_endif (size_incr st.global_counter_if))
        (emit (line_if_else_label (size_incr st.global_counter_if))
          (emit (line_jmp_endif (size_incr st.global_counter_if)) st3)))
  | if_some {condition if_branch else_node : Node} {st st1 st3 st5 : State}
      {operation : Char} :
    condition_op condition = .ok operation →
    Run condition (enter_if st) st1 →
    Run if_branch (emit (line_if_label (size_incr st.global_counter_if))
      (emit_all (if_jump_lines operation (size_incr st.global_counter_if)) st1)) st3 →
    Run else_node (emit (line_if_else_label (size_incr st.global_counter_if))
      (emit (line_jmp_endif (size_incr st.global_counter_if)) st3)) st5 →
    Run (.if_ condition if_branch (some else_node)) st
      (emit (line_endif (size_incr st.global_counter_if)) st5)
  | while_ {condition body : Node} {st st1 st2 : State} {operation : Char} :
    condition_op condition = .ok operation →
    Run condition (emit (line_while_label (size_incr st.global_counter_while))
      (enter_while st)) st1 →
    Run body (emit_all (while_jump_lines operation (size_incr st.global_counter_while)) st1)
      st2 →
    Run (.while_ condition body) st
      (emit (line_endwhile (size_incr st.global_counter_while))
        (emit (line_jmp_while (size_incr st.global_counter_while)) st2))
  | other (type : Nat) (st : State) : Run (.other type) st st

/-- What a completed run does to the counters when it enters `ki` `IF` nodes and `kw` `WHILE`
nodes, in `size_t` arithmetic: each counter advances by that number modulo `2^64`, and the ids
logged are the successive values of the counter. -/
def Counts (st st' : State) (ki kw : Nat) : Prop :=
  st'.global_counter_if = (st.global_counter_if + ki) % 2 ^ 64 ∧
  st'.global_counter_while = (st.global_counter_while + kw) % 2 ^ 64 ∧
  st'.taken_if = st.taken_if ++
    (List.range ki).map (fun i => (st.global_counter_if + 1 + i) % 2 ^ 64) ∧
  st'.taken_while = st.taken_while ++
    (List.range kw).map (fun i => (st.global_counter_while + 1 + i) % 2 ^ 64)

mutual
/-- Whether some node of a tree, the root included, has an unrecognised type. -/
def contains_other : Node → Bool
  | .num _ => false
  | .print expr => contains_other expr
  | .sequence statements => contains_other_list statements
  | .binary_op _ left right => contains_other left || contains_other right
  | .var _ => false
  | .let_ _ value => contains_other value
  | .if_ condition if_branch else_branch =>
    contains_other condition || contains_other if_branch || contains_other_option else_branch
  | .while_ condition body => contains_other condition || contains_other body
  | .other _ => true
/-- Whether some tree of a list holds a node of an unrecognised type. -/
def contains_other_list : List Node → Bool
  | [] => false
  | statement :: rest => contains_other statement || contains_other_list rest
/-- Whether an optional tree holds a node of an unrecognised type. -/
def contains_other_option : Option Node → Bool
  | none => false
  | some else_node => contains_other else_node
end

/-- A program whose second statement prints a node of an unrecognised type. -/
def swallowing_program : Node :=
  .sequence [.let_ 'A' (.num 1), .print (.other 42), .print (.var 'A')]

/-! ## Stack depth and jump targets of emitted text -/

/-- Effect of one emitted line on the number of values held on the machine stack; `none` when
a `pop` finds nothing pushed. -/
def stack_step (depth : Nat) (line : String) : Option Nat :=
  if line = "push %rdi" then some (depth + 1)
  else if line = "pop %r8" then (if depth = 0 then none else some (depth - 1))
  else some depth

/-- The stack depth after a list of lines, starting from `depth`; `none` when some `pop`
finds nothing pushed. -/
def depth_after : Nat → List String → Option Nat
  | depth, [] => some depth
  | depth, line :: rest =>
    match stack_step depth line with
    | none => none
    | some depth1 => depth_after depth1 rest

/-- The label named by a jump line: the text after the mnemonic and the blank, for a line that
starts with `j` (the emitted jumps are `jne`, `jng`, `jnl`, `jmp`); `none` for other lines. -/
def jump_target (line : String) : Option String :=
  if line.data.head? = some 'j' then some (String.mk (line.data.drop 4)) else none

/-- Whether a line starts like `push` or `pop`. -/
def has_stack_head (line : String) : Bool :=
  head4 line ∈ ["push".data, "pop ".data]

/-- Whether a line is neither a `push`, nor a `pop`, nor a jump. -/
def is_inert (line : String) : Bool :=
  !has_stack_head line && !(line.data.head? == some 'j')

/-- Every jump among `lines` names a label that some line of `defs` defines, and that label
is no `IF_labelN`. -/
def JumpsClosed (lines defs : List String) : Prop :=
  ∀ line, line ∈ lines → ∀ target, jump_target line = some target →
    (target ++ ":") ∈ defs ∧ ∀ m : Nat, target ≠ "IF_label" ++ fmt_dec m

/-- Lines that keep the stack balanced whatever its depth, and whose jumps are closed. -/
def Closed (code : List String) : Prop :=
  (∀ depth, depth_after depth code = some depth) ∧ JumpsClosed code code

/-! ## Structural induction on nodes -/

/-- Induction principle for `Node`, with the statement list and the optional else-branch
handled through membership. -/
theorem Node.induct {P : Node → Prop}
    (h_num : ∀ value, P (.num value))
    (h_print : ∀ expr, P expr → P (.print expr))
    (h_sequence : ∀ statements, (∀ n, n ∈ statements → P n) → P (.sequence statements))
    (h_binary_op : ∀ op left right, P left → P right → P (.binary_op op left right))
    (h_var : ∀ name, P (.var name))
    (h_let : ∀ var value, P value → P (.let_ var value))
    (h_if : ∀ condition if_branch else_branch, P condition → P if_branch →
      (∀ n, else_branch = some n → P n) → P (.if_ condition if_branch else_branch))
    (h_while : ∀ condition body, P condition → P body → P (.while_ condition body))
    (h_other : ∀ type, P (.other type)) :
    ∀ node, P node := by
  intro node
  refine Node.rec (motive_1 := P) (motive_2 := fun l => ∀ n, n ∈ l → P n)
    (motive_3 := fun o => ∀ n, o = some n → P n)
    h_num h_print h_sequence h_binary_op h_var h_let h_if h_while h_other ?_ ?_ ?_ ?_ node
  · intro n hn; cases hn
  · intro head tail hh ht n hn
    rcases List.mem_cons.mp hn with rfl | hmem
    · exact hh
    · exact ht n hmem
  · intro n hn; cases hn
  · intro val hv n hn
    cases hn; exact hv

/-! ## Facts about machine arithmetic -/

theorem wrap64_in_int64 (x : Int) : in_int64 (wrap64 x) := by
  unfold in_int64 wrap64 INT64_MIN INT64_MAX; omega

theorem wrap64_of_in_int64 (x : Int) (h : in_int64 x) : wrap64 x = x := by
  unfold in_int64 INT64_MIN INT64_MAX at h; unfold wrap64; omega

theorem to_u64_wrap64 (x : Int) : to_u64 (wrap64 x) = to_u64 x := by
  unfold to_u64 wrap64; congr 1; omega

/-- A truncating quotient of two `int64_t` values fits, except for `INT64_MIN / -1`. -/
theorem tdiv_in_int64 (a b : Int) (ha : in_int64 a) (hb : b ≠ 0)
    (hab : ¬ (a = INT64_MIN ∧ b = -1)) : in_int64 (Int.tdiv a b) := by
  unfold in_int64 INT64_MIN INT64_MAX at *
  have hnat : (Int.tdiv a b).natAbs = a.natAbs / b.natAbs := Int.natAbs_tdiv a b
  by_cases h1 : b = 1
  · subst h1; simp only [Int.tdiv_one]; exact ha
  by_cases h2 : b = -1
  · subst h2
    have : Int.tdiv a (-1) = -a := by
      rw [show (-1 : Int) = -(1 : Int) from rfl, Int.tdiv_neg, Int.tdiv_one]
    rw [this]
    have hne : a ≠ -(2 ^ 63) := fun h => hab ⟨h, rfl⟩
    omega
  · have h3 : 2 ≤ b.natAbs := by omega
    have h4 : a.natAbs / b.natAbs ≤ a.natAbs / 2 := Nat.div_le_div_left h3 (by decide)
    omega

/-! ## Facts about `power_of_2` -/

theorem tmod_two_pow_succ (k : Nat) : Int.tmod ((2 : Int) ^ (k + 1)) 2 = 0 := by
  rw [pow_succ]; exact Int.mul_tmod_left _ _

theorem tdiv_two_pow_succ (k : Nat) : Int.tdiv ((2 : Int) ^ (k + 1)) 2 = 2 ^ k := by
  rw [pow_succ]; exact Int.mul_tdiv_cancel _ (by decide)

theorem two_pow_succ_ne_one (k : Nat) : (2 : Int) ^ (k + 1) ≠ 1 := by
  have h : (0 : Int) < 2 ^ k := by positivity
  rw [pow_succ]; omega

/-- On `2^k` the loop runs `k` halvings and returns the incremented counter. -/
theorem power_of_2_loop_pow (k : Nat) :
    ∀ fuel power, k < fuel → power_of_2_loop fuel ((2 : Int) ^ k) power = some (power + k) := by
  induction k with
  | zero =>
    intro fuel power h
    obtain ⟨f, rfl⟩ : ∃ f, fuel = f + 1 := ⟨fuel - 1, by omega⟩
    simp [power_of_2_loop]
  | succ k ih =>
    intro fuel power h
    obtain ⟨f, rfl⟩ : ∃ f, fuel = f + 1 := ⟨fuel - 1, by omega⟩
    rw [power_of_2_loop, if_pos (two_pow_succ_ne_one k), if_neg (by simp [tmod_two_pow_succ]),
      tdiv_two_pow_succ, ih f (power + 1) (by omega)]
    congr 1; omega

/-- A nonzero result of the loop is the counter after halving down to `1`. -/
theorem power_of_2_loop_sound :
    ∀ fuel value power r, power_of_2_loop fuel value power = some r →
      r = 0 ∨ (power ≤ r ∧ value = 2 ^ (r - power)) := by
  intro fuel
  induction fuel with
  | zero => intro value power r h; simp [power_of_2_loop] at h
  | succ f ih =>
    intro value power r h
    rw [power_of_2_loop] at h
    by_cases h1 : value ≠ 1
    · rw [if_pos h1] at h
      by_cases h2 : Int.tmod value 2 ≠ 0
      · rw [if_pos h2] at h
        left; exact (Option.some.inj h).symm
      · rw [if_neg h2] at h
        rcases ih _ _ _ h with h0 | ⟨hle, hv⟩
        · left; exact h0
        · right
          refine ⟨by omega, ?_⟩
          have h3 : Int.tmod value 2 = 0 := not_not.mp h2
          have h4 := Int.mul_tdiv_cancel_of_tmod_eq_zero h3
          have h5 : r - power = (r - (power + 1)) + 1 := by omega
          rw [h5, pow_succ, ← hv, mul_comm]; exact h4.symm
    · rw [if_neg h1] at h
      right
      have hr : power = r := Option.some.inj h
      subst hr
      simp only [not_not] at h1
      simp [h1]

/-- With `|value|` units of fuel the loop finishes on every nonzero value. -/
theorem power_of_2_loop_total :
    ∀ fuel value power, value ≠ 0 → value.natAbs ≤ fuel →
      ∃ r, power_of_2_loop fuel value power = some r := by
  intro fuel
  induction fuel with
  | zero => intro value power h0 h; omega
  | succ f ih =>
    intro value power h0 h
    rw [power_of_2_loop]
    by_cases h1 : value ≠ 1
    · rw [if_pos h1]
      by_cases h2 : Int.tmod value 2 ≠ 0
      · rw [if_pos h2]; exact ⟨0, rfl⟩
      · rw [if_neg h2]
        have h3 : Int.tmod value 2 = 0 := not_not.mp h2
        have h4 := Int.mul_tdiv_cancel_of_tmod_eq_zero h3
        apply ih
        · intro hz; rw [hz] at h4; omega
        · omega
    · rw [if_neg h1]; exact ⟨power, rfl⟩

/-- The function `power_of_2` returns on every input. -/
theorem power_of_2_total (value : Int) : ∃ r, power_of_2 value = some r := by
  unfold power_of_2
  by_cases h : value ≠ 0
  · rw [if_pos h]; exact power_of_2_loop_total _ _ _ h (le_refl _)
  · rw [if_neg h]; exact ⟨0, rfl⟩

/-- On `2^k` the function `power_of_2` returns `k`. -/
theorem power_of_2_pow (k : Nat) : power_of_2 ((2 : Int) ^ k) = some k := by
  have hpos : (0 : Int) < 2 ^ k := by positivity
  unfold power_of_2
  rw [if_pos (by omega)]
  have hlt : k < ((2 : Int) ^ k).natAbs := by
    have h1 : ((2 : Int) ^ k).natAbs = 2 ^ k := by
      rw [Int.natAbs_pow]; rfl
    rw [h1]; exact Nat.lt_two_pow k
  simpa using power_of_2_loop_pow k _ 0 hlt

/-- A nonzero result `r` of `power_of_2` means that the value is `2^r`. -/
theorem power_of_2_sound (value : Int) (r : Nat) (h : power_of_2 value = some r) (hr : r ≠ 0) :
    value = 2 ^ r := by
  unfold power_of_2 at h
  by_cases h0 : value ≠ 0
  · rw [if_pos h0] at h
    rcases power_of_2_loop_sound _ _ _ _ h with h1 | ⟨_, h2⟩
    · exact absurd h1 hr
    · simpa using h2
  · rw [if_neg h0] at h
    exact absurd (Option.some.inj h).symm hr

/-! ## Facts about constant folding -/

/-- On an arithmetic tree without a faulting division, `evaluate_constants` returns the value
of the tree, that value is an `int64_t`, and `is_constants` accepts the tree. -/
theorem evaluate_constants_arith :
    ∀ t, arith_tree t = true → no_zero_divisor t = true → no_overflowing_division t = true →
      evaluate_constants t = .ok (arith_value t) ∧ in_int64 (arith_value t) ∧
        is_constants t = true := by
  intro t
  induction t using Node.induct with
  | h_num value =>
    intro h _ _
    simp only [arith_tree, decide_eq_true_eq] at h
    exact ⟨rfl, h, rfl⟩
  | h_binary_op op left right ihl ihr =>
    intro h hz ho
    simp only [arith_tree, Bool.and_eq_true] at h
    simp only [no_zero_divisor, Bool.and_eq_true, Bool.not_eq_true', Bool.and_eq_false_iff,
      beq_eq_false_iff_ne, ne_eq, beq_iff_eq] at hz
    simp only [no_overflowing_division, Bool.and_eq_true, Bool.not_eq_true',
      Bool.and_eq_false_iff, beq_eq_false_iff_ne, ne_eq, beq_iff_eq] at ho
    obtain ⟨⟨hop, hl⟩, hr⟩ := h
    obtain ⟨⟨hzl, hzr⟩, hz0⟩ := hz
    obtain ⟨⟨hol, hor⟩, ho0⟩ := ho
    obtain ⟨el, rl, cl⟩ := ihl hl hzl hol
    obtain ⟨er, rr, cr⟩ := ihr hr hzr hor
    refine ⟨?_, ?_, by simp [is_constants, cl, cr]⟩
    · simp only [evaluate_constants, er, el, arith_value]
      by_cases h1 : op = '+'
      · simp [h1]
      by_cases h2 : op = '-'
      · simp [h2]
      by_cases h3 : op = '*'
      · simp [h3]
      by_cases h4 : op = '/'
      · subst h4
        have hne : arith_value right ≠ 0 := by
          rcases hz0 with h | h
          · exact absurd rfl h
          · exact h
        have hmin : ¬ (arith_value left = INT64_MIN ∧ arith_value right = -1) := by
          rintro ⟨ha, hb⟩
          rcases ho0 with (h | h) | h
          · exact absurd rfl h
          · exact h ha
          · exact h hb
        have hin := tdiv_in_int64 _ _ rl hne hmin
        simp [c_div, hne, hmin, wrap64_of_in_int64 _ hin]
      · simp [is_arith_op, h1, h2, h3, h4] at hop
    · simp only [arith_value]
      split_ifs
      · exact wrap64_in_int64 _
      · exact wrap64_in_int64 _
      · exact wrap64_in_int64 _
      · exact wrap64_in_int64 _
      · decide
  | h_print expr _ => intro h; simp [arith_tree] at h
  | h_sequence statements _ => intro h; simp [arith_tree] at h
  | h_var name => intro h; simp [arith_tree] at h
  | h_let var value _ => intro h; simp [arith_tree] at h
  | h_if c t e _ _ _ => intro h; simp [arith_tree] at h
  | h_while c b _ _ => intro h; simp [arith_tree] at h
  | h_other type => intro h; simp [arith_tree] at h

/-- A constant `BINARY_OP` node whose fold returns is compiled to one immediate load. -/
theorem compile_ast_constant (op : Char) (left right : Node) (st : State) (c : Int)
    (hc : is_constants (.binary_op op left right) = true)
    (he : evaluate_constants (.binary_op op left right) = .ok c) :
    compile_ast (.binary_op op left right) st = .ok (true, emit (line_mov_imm c) st) := by
  rw [compile_ast, if_pos hc, he]

/-! ## Facts about the shift reduction -/

/-- The shift path of `BINARY_OP`: a non-constant `*` node whose right operand folds to a value
with a nonzero `power_of_2` compiles its left operand and then emits one `sal`. -/
theorem compile_ast_shift (left right : Node) (st : State) (v : Int) (k : Nat)
    (hnc : is_constants (.binary_op '*' left right) = false)
    (hrc : is_constants right = true)
    (hv : evaluate_constants right = .ok v)
    (hk : power_of_2 v = some k) (hk0 : k ≠ 0) :
    compile_ast (.binary_op '*' left right) st =
      match compile_ast left st with
      | .error f => .error f
      | .ok (_, st1) => .ok (true, emit (line_sal k) st1) := by
  rw [compile_ast, if_neg (by simp [hnc])]
  simp only [if_true, hrc, hv, hk, if_pos hk0]
  cases compile_ast left st with
  | error f => rfl
  | ok r => rfl

/-! ## Facts about variable slots -/

/-- For each letter, the text of the load and of the store names the frame offset of the
letter, written as two hexadecimal digits. -/
theorem slot_lines_of_letter : ∀ name ∈ letters,
    line_load name = "mov -0x" ++ hex2 (frame_offset name) ++ "(%rbp), %rdi" ∧
    line_store name = "mov %rdi, -0x" ++ hex2 (frame_offset name) ++ "(%rbp)" := by
  decide

/-- The frame offsets of the letters are multiples of 8 from 8 to 208. -/
theorem frame_offset_range : ∀ name ∈ letters,
    8 ∣ frame_offset name ∧ 8 ≤ frame_offset name ∧ frame_offset name ≤ 208 := by
  decide

/-- Distinct letters have distinct frame offsets, and distinct texts for them. -/
theorem frame_offset_injective : ∀ a ∈ letters, ∀ b ∈ letters, a ≠ b →
    frame_offset a ≠ frame_offset b ∧ hex2 (frame_offset a) ≠ hex2 (frame_offset b) := by
  decide

/-! ## Facts about the decimal conversion -/

theorem toDigitsCore_acc (fuel : Nat) : ∀ n ds,
    Nat.toDigitsCore 10 fuel n ds = Nat.toDigitsCore 10 fuel n [] ++ ds := by
  induction fuel with
  | zero => intro n ds; simp [Nat.toDigitsCore]
  | succ f ih =>
    intro n ds
    simp only [Nat.toDigitsCore]
    by_cases h : n / 10 = 0
    · simp [h]
    · simp only [h, if_false]
      rw [ih (n / 10) (_ :: ds), ih (n / 10) [_]]
      simp

theorem toDigitsCore_fuel (fuel : Nat) : ∀ n, n < fuel →
    Nat.toDigitsCore 10 fuel n [] = Nat.toDigits 10 n := by
  induction fuel using Nat.strong_induction_on with
  | _ fuel ih =>
    intro n hn
    obtain ⟨f, rfl⟩ : ∃ f, fuel = f + 1 := ⟨fuel - 1, by omega⟩
    unfold Nat.toDigits
    simp only [Nat.toDigitsCore]
    by_cases h : n / 10 = 0
    · simp [h]
    · simp only [h, if_false]
      rw [toDigitsCore_acc f, toDigitsCore_acc n]
      have h1 : n / 10 < f := by omega
      have h2 : n / 10 < n := by omega
      rw [ih f (by omega) (n / 10) h1, ih n (by omega) (n / 10) h2]

theorem toDigits_rec (n : Nat) :
    Nat.toDigits 10 n =
      (if n / 10 = 0 then [] else Nat.toDigits 10 (n / 10)) ++ [Nat.digitChar (n % 10)] := by
  conv_lhs => unfold Nat.toDigits
  simp only [Nat.toDigitsCore]
  by_cases h : n / 10 = 0
  · simp [h]
  · simp only [h, if_false]
    rw [toDigitsCore_acc, toDigitsCore_fuel n (n / 10) (by omega)]

theorem toDigits_ne_nil (n : Nat) : Nat.toDigits 10 n ≠ [] := by
  rw [toDigits_rec]; simp

theorem digitChar_inj : ∀ a < 10, ∀ b < 10, Nat.digitChar a = Nat.digitChar b → a = b := by
  decide

theorem toDigits_inj : ∀ n m, Nat.toDigits 10 n = Nat.toDigits 10 m → n = m := by
  intro n
  induction n using Nat.strong_induction_on with
  | _ n ih =>
    intro m h
    rw [toDigits_rec n, toDigits_rec m] at h
    obtain ⟨h1, h2⟩ := List.append_inj' h rfl
    have hd : n % 10 = m % 10 :=
      digitChar_inj _ (Nat.mod_lt _ (by decide)) _ (Nat.mod_lt _ (by decide)) (by simpa using h2)
    by_cases hn : n / 10 = 0
    · by_cases hm : m / 10 = 0
      · omega
      · simp only [hn, hm, if_true, if_false] at h1
        exact absurd h1.symm (toDigits_ne_nil _)
    · by_cases hm : m / 10 = 0
      · simp only [hn, hm, if_true, if_false] at h1
        exact absurd h1 (toDigits_ne_nil _)
      · simp only [hn, hm, if_false] at h1
        have := ih (n / 10) (by omega) (m / 10) h1
        omega

/-- The conversion `%zu` is injective. -/
theorem fmt_dec_inj (n m : Nat) (h : fmt_dec n = fmt_dec m) : n = m := by
  have h' : (Nat.toDigits 10 n).asString = (Nat.toDigits 10 m).asString := h
  exact toDigits_inj n m (congrArg String.data h')

/-! ## Facts about the text of the lines -/

theorem label_line_head (kind : LabelKind) (n : Nat) : has_label_head (label_line kind n) = true := by
  cases kind <;> rfl

theorem head4_label_line (kind : LabelKind) (n : Nat) :
    head4 (label_line kind n) = kind.stem.data.take 4 := by
  cases kind <;> rfl

/-- A line that does not start like a label definition is none. -/
theorem label_line_ne_of_head (line : String) (h : has_label_head line = false)
    (kind : LabelKind) (n : Nat) : label_line kind n ≠ line := by
  intro heq
  rw [← heq, label_line_head] at h
  exact Bool.noConfusion h

/-- A label definition line determines its kind and its id. -/
theorem label_line_inj (k1 k2 : LabelKind) (n1 n2 : Nat)
    (h : label_line k1 n1 = label_line k2 n2) : k1 = k2 ∧ n1 = n2 := by
  have hk : k1 = k2 := by
    have h4 := congrArg head4 h
    rw [head4_label_line, head4_label_line] at h4
    cases k1 <;> cases k2 <;> first | rfl | (exact absurd h4 (by decide))
  subst hk
  refine ⟨rfl, fmt_dec_inj n1 n2 ?_⟩
  have hd := congrArg String.data h
  simp only [label_line, String.data_append] at hd
  have hd2 := List.append_cancel_left (List.append_cancel_right hd)
  exact String.ext hd2

/-! ## Facts about stretches of a run -/

theorem expected_count_zero (kind : LabelKind) (n a a' : Nat) :
    expected_count kind n a 0 a' 0 = 0 := by
  unfold expected_count; split_ifs <;> omega

theorem expected_count_add (kind : LabelKind) (n a k1 k2 a' w1 w2 : Nat) :
    expected_count kind n a k1 a' w1 + expected_count kind n (a + k1) k2 (a' + w1) w2
      = expected_count kind n a (k1 + k2) a' (w1 + w2) := by
  unfold expected_count
  cases kind.of_if <;> simp only [if_true, if_false, Bool.false_eq_true] <;> split_ifs <;> omega

theorem stretch_congr {st st' : State} {ki kw : Nat} {f g : LabelKind → Nat → Nat}
    (h : Stretch st st' ki kw f) (hfg : ∀ kind n, f kind n = g kind n) :
    Stretch st st' ki kw g where
  counter_if := h.counter_if
  counter_while := h.counter_while
  taken_if := h.taken_if
  taken_while := h.taken_while
  out := by
    obtain ⟨code, ho, hc⟩ := h.out
    exact ⟨code, ho, fun kind n => (hc kind n).trans (hfg kind n)⟩

theorem stretch_trans {a b c : State} {k1 w1 k2 w2 : Nat} {f1 f2 : LabelKind → Nat → Nat}
    (h1 : Stretch a b k1 w1 f1) (h2 : Stretch b c k2 w2 f2) :
    Stretch a c (k1 + k2) (w1 + w2) (fun kind n => f1 kind n + f2 kind n) where
  counter_if := by rw [h2.counter_if, h1.counter_if]; omega
  counter_while := by rw [h2.counter_while, h1.counter_while]; omega
  taken_if := by
    rw [h2.taken_if, h1.taken_if, h1.counter_if, List.append_assoc,
      Nat.add_right_comm a.global_counter_if k1 1, List.range'_append_1, Nat.add_comm k2 k1]
  taken_while := by
    rw [h2.taken_while, h1.taken_while, h1.counter_while, List.append_assoc,
      Nat.add_right_comm a.global_counter_while w1 1, List.range'_append_1, Nat.add_comm w2 w1]
  out := by
    obtain ⟨c1, ho1, hc1⟩ := h1.out
    obtain ⟨c2, ho2, hc2⟩ := h2.out
    refine ⟨c1 ++ c2, by rw [ho2, ho1, List.append_assoc], ?_⟩
    intro kind n
    rw [List.count_append, hc1, hc2]

/-- Lines that do not start like a label definition. -/
theorem stretch_emit_all (st : State) (lines : List String)
    (h : ∀ line, line ∈ lines → has_label_head line = false) :
    Stretch st (emit_all lines st) 0 0 (fun _ _ => 0) where
  counter_if := rfl
  counter_while := rfl
  taken_if := by simp [emit_all]
  taken_while := by simp [emit_all]
  out := by
    refine ⟨lines, rfl, ?_⟩
    intro kind n
    exact List.count_eq_zero.mpr (fun hmem => label_line_ne_of_head _ (h _ hmem) kind n rfl)

theorem stretch_emit (st : State) (line : String) (h : has_label_head line = false) :
    Stretch st (emit line st) 0 0 (fun _ _ => 0) :=
  stretch_emit_all st [line] (by intro l hl; rw [List.mem_singleton.mp hl]; exact h)

/-- A label definition line. -/
theorem stretch_emit_label (st : State) (kind0 : LabelKind) (n0 : Nat) :
    Stretch st (emit (label_line kind0 n0) st) 0 0
      (fun kind n => if kind = kind0 ∧ n = n0 then 1 else 0) where
  counter_if := rfl
  counter_while := rfl
  taken_if := by simp [emit]
  taken_while := by simp [emit]
  out := by
    refine ⟨[label_line kind0 n0], rfl, ?_⟩
    intro kind n
    by_cases h : kind = kind0 ∧ n = n0
    · obtain ⟨rfl, rfl⟩ := h; simp
    · rw [if_neg h]
      refine List.count_eq_zero.mpr (fun hmem => h ?_)
      exact label_line_inj _ _ _ _ (List.mem_singleton.mp hmem)

theorem advance_refl (st : State) : Advance st st 0 0 where
  counter_if := rfl
  counter_while := rfl
  taken_if := by simp
  taken_while := by simp
  out := ⟨[], by simp, by intro kind n; rw [expected_count_zero]; rfl⟩

theorem advance_trans {a b c : State} {k1 w1 k2 w2 : Nat}
    (h1 : Advance a b k1 w1) (h2 : Advance b c k2 w2) : Advance a c (k1 + k2) (w1 + w2) := by
  refine stretch_congr (stretch_trans h1 h2) ?_
  intro kind n
  show expected_count _ _ _ _ _ _ + expected_count _ _ _ _ _ _ = expected_count _ _ _ _ _ _
  rw [h1.counter_if, h1.counter_while, Nat.add_right_comm a.global_counter_if k1 1,
    Nat.add_right_comm a.global_counter_while w1 1]
  exact expected_count_add _ _ _ _ _ _ _ _

/-- Appending plain lines after a whole-node run. -/
theorem advance_then_plain {a b c : State} {k w : Nat}
    (h1 : Advance a b k w) (h2 : Stretch b c 0 0 (fun _ _ => 0)) : Advance a c k w := by
  have h : Stretch a c (k + 0) (w + 0) (fun kind n =>
      expected_count kind n (a.global_counter_if + 1) k (a.global_counter_while + 1) w) :=
    stretch_congr (stretch_trans h1 h2) (by intro kind n; simp)
  exact h

/-- Putting plain lines before a whole-node run. -/
theorem advance_after_plain {a b c : State} {k w : Nat}
    (h1 : Stretch a b 0 0 (fun _ _ => 0)) (h2 : Advance b c k w) : Advance a c k w := by
  have hi : b.global_counter_if = a.global_counter_if := h1.counter_if
  have hw : b.global_counter_while = a.global_counter_while := h1.counter_while
  have h : Stretch a c (0 + k) (0 + w) (fun kind n =>
      expected_count kind n (a.global_counter_if + 1) k (a.global_counter_while + 1) w) :=
    stretch_congr (stretch_trans h1 h2) (by intro kind n; simp [hi, hw])
  simpa [Advance] using h

theorem count_of_is_constants :
    ∀ t, is_constants t = true → count_if t = 0 ∧ count_while t = 0 := by
  intro t
  induction t using Node.induct with
  | h_num value => intro _; exact ⟨rfl, rfl⟩
  | h_binary_op op left right ihl ihr =>
    intro h
    have hl : is_constants left = true := by
      cases hx : is_constants left <;> simp [is_constants, hx] at h ⊢
    have hr : is_constants right = true := by
      cases hx : is_constants right <;> simp [is_constants, hx, hl] at h ⊢
    simp [count_if, count_while, ihl hl, ihr hr]
  | h_print expr _ => intro h; simp [is_constants] at h
  | h_sequence statements _ => intro h; simp [is_constants] at h
  | h_var name => intro h; simp [is_constants] at h
  | h_let var value _ => intro h; simp [is_constants] at h
  | h_if c t e _ _ _ => intro h; simp [is_constants] at h
  | h_while c b _ _ => intro h; simp [is_constants] at h
  | h_other type => intro h; simp [is_constants] at h

/-! ## Inversion of completed runs -/

theorem general_case_inv (op : Char) (left right : Node) (st : State) (b : Bool) (st' : State)
    (h : (match compile_ast right st with
          | Except.error f => (Except.error f : Except Fault (Bool × State))
          | Except.ok (_, st2) =>
            match compile_ast left (emit "push %rdi" st2) with
            | Except.error f => Except.error f
            | Except.ok (_, st3) =>
              Except.ok (true, emit_all (operator_lines op) (emit "pop %r8" st3)))
          = Except.ok (b, st')) :
    b = true ∧ ∃ b1 st2 b2 st3, compile_ast right st = .ok (b1, st2) ∧
      compile_ast left (emit "push %rdi" st2) = .ok (b2, st3) ∧
      st' = emit_all (operator_lines op) (emit "pop %r8" st3) := by
  split at h
  · cases h
  · rename_i b1 st2 h1
    split at h
    · cases h
    · rename_i b2 st3 h2
      cases h
      exact ⟨rfl, b1, st2, b2, st3, h1, h2, rfl⟩

/-- A completed run on a `BINARY_OP` node went through exactly one of the three paths. -/
theorem compile_ast_binary_op_inv (op : Char) (left right : Node) (st : State) (b : Bool)
    (st' : State) (h : compile_ast (.binary_op op left right) st = .ok (b, st')) :
    b = true ∧
    ((is_constants (.binary_op op left right) = true ∧
        ∃ c, evaluate_constants (.binary_op op left right) = .ok c ∧
          st' = emit (line_mov_imm c) st) ∨
     (is_constants (.binary_op op left right) = false ∧ op = '*' ∧ is_constants right = true ∧
        ∃ v k b1 st1, evaluate_constants right = .ok v ∧ power_of_2 v = some k ∧ k ≠ 0 ∧
          compile_ast left st = .ok (b1, st1) ∧ st' = emit (line_sal k) st1) ∨
     (is_constants (.binary_op op left right) = false ∧
        ∃ b1 st2 b2 st3, compile_ast right st = .ok (b1, st2) ∧
          compile_ast left (emit "push %rdi" st2) = .ok (b2, st3) ∧
          st' = emit_all (operator_lines op) (emit "pop %r8" st3))) := by
  rw [compile_ast] at h
  by_cases hc : is_constants (.binary_op op left right) = true
  · rw [if_pos hc] at h
    split at h
    · cases h
    · rename_i c hev
      cases h
      exact ⟨rfl, Or.inl ⟨hc, c, hev, rfl⟩⟩
  · rw [if_neg hc] at h
    have hc' : is_constants (.binary_op op left right) = false := by simpa using hc
    have hgen := fun hh => (⟨(general_case_inv op left right st b st' hh).1,
        Or.inr (Or.inr ⟨hc', (general_case_inv op left right st b st' hh).2⟩)⟩ :
      b = true ∧
      ((is_constants (.binary_op op left right) = true ∧
        ∃ c, evaluate_constants (.binary_op op left right) = .ok c ∧
          st' = emit (line_mov_imm c) st) ∨
     (is_constants (.binary_op op left right) = false ∧ op = '*' ∧ is_constants right = true ∧
        ∃ v k b1 st1, evaluate_constants right = .ok v ∧ power_of_2 v = some k ∧ k ≠ 0 ∧
          compile_ast left st = .ok (b1, st1) ∧ st' = emit (line_sal k) st1) ∨
     (is_constants (.binary_op op left right) = false ∧
        ∃ b1 st2 b2 st3, compile_ast right st = .ok (b1, st2) ∧
          compile_ast left (emit "push %rdi" st2) = .ok (b2, st3) ∧
          st' = emit_all (operator_lines op) (emit "pop %r8" st3))))
    by_cases hop : op = '*'
    · by_cases hr : is_constants right = true
      · obtain ⟨f, hv⟩ | ⟨v, hv⟩ : (∃ f, evaluate_constants right = .error f) ∨
            (∃ v, evaluate_constants right = .ok v) := by
          cases evaluate_constants right <;> simp
        · simp [hop, hr, hv] at h
        · obtain hk | ⟨k, hk⟩ : power_of_2 v = none ∨ ∃ k, power_of_2 v = some k := by
            cases power_of_2 v <;> simp
          · simp [hop, hr, hv, hk] at h
          · by_cases hk0 : k = 0
            · simp only [hop, hr, hv, hk, hk0, if_true, ne_eq, not_true_eq_false, if_false] at h
              exact hgen (hop ▸ h)
            · simp only [hop, hr, hv, hk, if_true, ne_eq, hk0, not_false_eq_true] at h
              split at h
              · cases h
              · rename_i x b1 st1 hl
                split at hl
                · cases hl
                · rename_i b1' st1' hl'
                  cases hl
                  simp only [Bool.true_eq_false, if_false] at h
                  cases h
                  exact ⟨rfl, Or.inr (Or.inl ⟨hc', hop, hr, v, k, b1', st1', hv, hk, hk0, hl', rfl⟩)⟩
      · simp only [hop, hr, if_true, if_false] at h
        exact hgen (hop ▸ h)
    · simp only [hop, if_false] at h
      exact hgen h

theorem compile_ast_print_inv (expr : Node) (st : State) (b : Bool) (st' : State)
    (h : compile_ast (.print expr) st = .ok (b, st')) :
    b = true ∧ ∃ b1 st1, compile_ast expr st = .ok (b1, st1) ∧
      st' = emit "call print_int" st1 := by
  rw [compile_ast] at h
  split at h
  · cases h
  · rename_i b1 st1 h1
    cases h
    exact ⟨rfl, b1, st1, h1, rfl⟩

theorem compile_ast_let_inv (var : Char) (value : Node) (st : State) (b : Bool) (st' : State)
    (h : compile_ast (.let_ var value) st = .ok (b, st')) :
    b = true ∧ ∃ b1 st1, compile_ast value st = .ok (b1, st1) ∧
      st' = emit (line_store var) st1 := by
  rw [compile_ast] at h
  split at h
  · cases h
  · rename_i b1 st1 h1
    cases h
    exact ⟨rfl, b1, st1, h1, rfl⟩

theorem compile_ast_sequence_inv (statements : List Node) (st : State) (b : Bool) (st' : State)
    (h : compile_ast (.sequence statements) st = .ok (b, st')) :
    b = true ∧ compile_statements statements st = .ok st' := by
  rw [compile_ast] at h
  split at h
  · cases h
  · rename_i st1 h1
    cases h
    exact ⟨rfl, h1⟩

theorem compile_statements_cons_inv (statement : Node) (rest : List Node) (st st' : State)
    (h : compile_statements (statement :: rest) st = .ok st') :
    ∃ b1 st1, compile_ast statement st = .ok (b1, st1) ∧
      compile_statements rest st1 = .ok st' := by
  rw [compile_statements] at h
  split at h
  · cases h
  · rename_i b1 st1 h1
    exact ⟨b1, st1, h1, h⟩

theorem compile_else_inv (else_branch : Option Node) (st st' : State)
    (h : compile_else else_branch st = .ok st') :
    (else_branch = none ∧ st' = st) ∨
    ∃ else_node b1, else_branch = some else_node ∧ compile_ast else_node st = .ok (b1, st') := by
  cases else_branch with
  | none =>
    rw [compile_else] at h
    cases h
    exact Or.inl ⟨rfl, rfl⟩
  | some else_node =>
    rw [compile_else] at h
    split at h
    · cases h
    · rename_i b1 st1 h1
      cases h
      exact Or.inr ⟨else_node, b1, rfl, h1⟩

/-- A completed run on an `IF` node, step by step. -/
theorem compile_ast_if_inv (condition if_branch : Node) (else_branch : Option Node)
    (st : State) (b : Bool) (st' : State)
    (h : compile_ast (.if_ condition if_branch else_branch) st = .ok (b, st')) :
    b = true ∧ ∃ b1 st1 operation b2 st3 st5,
      compile_ast condition (enter_if st) = .ok (b1, st1) ∧
      condition_op condition = .ok operation ∧
      compile_ast if_branch (emit (line_if_label (size_incr st.global_counter_if))
        (emit_all (if_jump_lines operation (size_incr st.global_counter_if)) st1))
        = .ok (b2, st3) ∧
      compile_else else_branch (emit (line_if_else_label (size_incr st.global_counter_if))
        (emit (line_jmp_endif (size_incr st.global_counter_if)) st3)) = .ok st5 ∧
      st' = emit (line_endif (size_incr st.global_counter_if)) st5 := by
  rw [compile_ast] at h
  simp only [] at h
  split at h
  · cases h
  · rename_i b1 st1 h1
    split at h
    · cases h
    · rename_i operation hop
      split at h
      · cases h
      · rename_i b2 st3 h3
        split at h
        · cases h
        · rename_i st5 h5
          cases h
          exact ⟨rfl, b1, st1, operation, b2, st3, st5, h1, hop, h3, h5, rfl⟩

/-- A completed run on a `WHILE` node, step by step. -/
theorem compile_ast_while_inv (condition body : Node) (st : State) (b : Bool) (st' : State)
    (h : compile_ast (.while_ condition body) st = .ok (b, st')) :
    b = true ∧ ∃ b1 st1 operation b2 st2,
      compile_ast condition (emit (line_while_label (size_incr st.global_counter_while))
        (enter_while st)) = .ok (b1, st1) ∧
      condition_op condition = .ok operation ∧
      compile_ast body
        (emit_all (while_jump_lines operation (size_incr st.global_counter_while)) st1)
        = .ok (b2, st2) ∧
      st' = emit (line_endwhile (size_incr st.global_counter_while))
        (emit (line_jmp_while (size_incr st.global_counter_while)) st2) := by
  rw [compile_ast] at h
  split at h
  · cases h
  · rename_i b1 st1 h1
    split at h
    · cases h
    · rename_i operation hop
      split at h
      · cases h
      · rename_i b2 st2 h2
        cases h
        exact ⟨rfl, b1, st1, operation, b2, st2, h1, hop, h2, rfl⟩

/-! ## Every completed run is an `Advance` -/

theorem operator_lines_plain (op : Char) :
    ∀ line, line ∈ operator_lines op → has_label_head line = false := by
  intro line hl
  unfold operator_lines at hl
  split_ifs at hl <;> simp only [List.mem_cons, List.mem_singleton, List.not_mem_nil,
    or_false] at hl <;> (try rcases hl with h | h | h | h) <;> subst_vars <;> rfl

theorem if_jump_lines_plain (op : Char) (n : Nat) :
    ∀ line, line ∈ if_jump_lines op n → has_label_head line = false := by
  intro line hl
  unfold if_jump_lines at hl
  split_ifs at hl <;> simp only [List.mem_singleton, List.not_mem_nil] at hl <;> subst_vars <;> rfl

theorem while_jump_lines_plain (op : Char) (n : Nat) :
    ∀ line, line ∈ while_jump_lines op n → has_label_head line = false := by
  intro line hl
  unfold while_jump_lines at hl
  split_ifs at hl <;> simp only [List.mem_singleton, List.not_mem_nil] at hl <;> subst_vars <;> rfl

/-- Without wrap-around, `++c` is `c + 1`. -/
theorem size_incr_eq (c : Nat) (h : c + 1 < 2 ^ 64) : size_incr c = c + 1 :=
  Nat.mod_eq_of_lt h

theorem line_if_label_eq (n : Nat) : line_if_label n = label_line .if_label n := rfl
theorem line_if_else_label_eq (n : Nat) : line_if_else_label n = label_line .if_else_label n :=
  rfl
theorem line_endif_eq (n : Nat) : line_endif n = label_line .endif n := rfl
theorem line_while_label_eq (n : Nat) : line_while_label n = label_line .while_label n := rfl
theorem line_endwhile_eq (n : Nat) : line_endwhile n = label_line .endwhile n := rfl

theorem stretch_cast {st st' : State} {ki kw ki' kw' : Nat} {f : LabelKind → Nat → Nat}
    (h : Stretch st st' ki kw f) (hi : ki = ki') (hw : kw = kw') : Stretch st st' ki' kw' f := by
  subst hi; subst hw; exact h

theorem stretch_enter_if (st : State) (h : st.global_counter_if + 1 < 2 ^ 64) :
    Stretch st (enter_if st) 1 0 (fun _ _ => 0) where
  counter_if := by simp [enter_if, size_incr_eq _ h]
  counter_while := rfl
  taken_if := by simp [enter_if, size_incr_eq _ h]
  taken_while := by simp [enter_if]
  out := ⟨[], by simp [enter_if], by intro kind n; rfl⟩

theorem stretch_enter_while (st : State) (h : st.global_counter_while + 1 < 2 ^ 64) :
    Stretch st (enter_while st) 0 1 (fun _ _ => 0) where
  counter_if := rfl
  counter_while := by simp [enter_while, size_incr_eq _ h]
  taken_if := by simp [enter_while]
  taken_while := by simp [enter_while, size_incr_eq _ h]
  out := ⟨[], by simp [enter_while], by intro kind n; rfl⟩

theorem compile_statements_advances (statements : List Node)
    (ih : ∀ n, n ∈ statements → RunAdvances n) :
    ∀ st st', compile_statements statements st = .ok st' →
      st.global_counter_if + count_if_list statements < 2 ^ 64 →
      st.global_counter_while + count_while_list statements < 2 ^ 64 →
      Advance st st' (count_if_list statements) (count_while_list statements) := by
  induction statements with
  | nil =>
    intro st st' h _ _
    rw [compile_statements] at h
    cases h
    exact advance_refl st
  | cons statement rest ihl =>
    intro st st' h hi hw
    obtain ⟨b1, st1, h1, h2⟩ := compile_statements_cons_inv _ _ _ _ h
    simp only [count_if_list, count_while_list] at hi hw ⊢
    have a1 := ih statement (List.mem_cons_self _ _) st b1 st1 h1 (by omega) (by omega)
    have a2 := ihl (fun n hn => ih n (List.mem_cons_of_mem _ hn)) st1 st' h2
      (by rw [a1.counter_if]; omega) (by rw [a1.counter_while]; omega)
    exact advance_trans a1 a2

theorem compile_else_advances (else_branch : Option Node)
    (ih : ∀ n, else_branch = some n → RunAdvances n) :
    ∀ st st', compile_else else_branch st = .ok st' →
      st.global_counter_if + count_if_option else_branch < 2 ^ 64 →
      st.global_counter_while + count_while_option else_branch < 2 ^ 64 →
      Advance st st' (count_if_option else_branch) (count_while_option else_branch) := by
  intro st st' h hi hw
  rcases compile_else_inv _ _ _ h with ⟨rfl, rfl⟩ | ⟨else_node, b1, rfl, h1⟩
  · exact advance_refl _
  · exact ih else_node rfl st b1 st' h1 hi hw

theorem advance_of_plain {a b : State} (h : Stretch a b 0 0 (fun _ _ => 0)) : Advance a b 0 0 :=
  advance_then_plain (advance_refl a) h

/-- Every completed run of `compile_ast` that cannot wrap a counter is an `Advance` by the
numbers of `IF` and `WHILE` nodes of the tree. -/
theorem compile_ast_advances : ∀ node, RunAdvances node := by
  intro node
  induction node using Node.induct with
  | h_num value =>
    intro st b st' h _ _
    rw [compile_ast] at h; cases h
    exact advance_of_plain (stretch_emit _ _ rfl)
  | h_print expr ih =>
    intro st b st' h hi hw
    obtain ⟨-, b1, st1, h1, rfl⟩ := compile_ast_print_inv _ _ _ _ h
    exact advance_then_plain (ih st b1 st1 h1 hi hw) (stretch_emit _ _ rfl)
  | h_sequence statements ih =>
    intro st b st' h hi hw
    obtain ⟨-, h1⟩ := compile_ast_sequence_inv _ _ _ _ h
    exact compile_statements_advances statements ih st st' h1 hi hw
  | h_binary_op op left right ihl ihr =>
    intro st b st' h hi hw
    obtain ⟨-, hcase⟩ := compile_ast_binary_op_inv _ _ _ _ _ _ h
    rcases hcase with ⟨hc, c, -, rfl⟩ | ⟨-, -, hrc, v, k, b1, st1, -, -, -, hl, rfl⟩ |
      ⟨-, b1, st2, b2, st3, hr, hl, rfl⟩
    · obtain ⟨h1, h2⟩ := count_of_is_constants _ hc
      rw [h1, h2]
      exact advance_of_plain (stretch_emit _ _ rfl)
    · obtain ⟨h1, h2⟩ := count_of_is_constants _ hrc
      simp only [count_if, count_while, h1, h2, Nat.add_zero] at hi hw ⊢
      exact advance_then_plain (ihl st b1 st1 hl hi hw) (stretch_emit _ _ rfl)
    · simp only [count_if, count_while] at hi hw ⊢
      have a1 := ihr st b1 st2 hr (by omega) (by omega)
      have a2 := advance_then_plain a1 (stretch_emit st2 "push %rdi" rfl)
      have a3 := ihl (emit "push %rdi" st2) b2 st3 hl
        (by rw [a2.counter_if]; omega) (by rw [a2.counter_while]; omega)
      have a4 := advance_then_plain
        (advance_then_plain (advance_trans a2 a3) (stretch_emit st3 "pop %r8" rfl))
        (stretch_emit_all _ _ (operator_lines_plain op))
      rw [Nat.add_comm (count_if left), Nat.add_comm (count_while left)]
      exact a4
  | h_var name =>
    intro st b st' h _ _
    rw [compile_ast] at h; cases h
    exact advance_of_plain (stretch_emit _ _ rfl)
  | h_let var value ih =>
    intro st b st' h hi hw
    obtain ⟨-, b1, st1, h1, rfl⟩ := compile_ast_let_inv _ _ _ _ _ h
    exact advance_then_plain (ih st b1 st1 h1 hi hw) (stretch_emit _ _ rfl)
  | h_if condition if_branch else_branch ihc iht ihe =>
    intro st b st' h hi hw
    obtain ⟨-, b1, st1, operation, b2, st3, st5, h1, -, h3, h5, rfl⟩ :=
      compile_ast_if_inv _ _ _ _ _ _ h
    simp only [count_if, count_while] at hi hw ⊢
    have hn : size_incr st.global_counter_if = st.global_counter_if + 1 :=
      size_incr_eq _ (by omega)
    rw [hn] at h3 h5 ⊢
    simp only [line_if_label_eq, line_if_else_label_eq, line_endif_eq] at h3 h5 ⊢
    have s0 := stretch_enter_if st (by omega)
    have a1 := ihc (enter_if st) b1 st1 h1 (by rw [s0.counter_if]; omega)
      (by rw [s0.counter_while]; omega)
    have s2 := stretch_emit_all st1 _
      (if_jump_lines_plain operation (st.global_counter_if + 1))
    have s3 := stretch_emit_label
      (emit_all (if_jump_lines operation (st.global_counter_if + 1)) st1)
      .if_label (st.global_counter_if + 1)
    have e2i : (emit (label_line .if_label (st.global_counter_if + 1))
        (emit_all (if_jump_lines operation (st.global_counter_if + 1)) st1)).global_counter_if
        = st.global_counter_if + 1 + count_if condition := by
      rw [s3.counter_if, s2.counter_if, a1.counter_if, s0.counter_if]; omega
    have e2w : (emit (label_line .if_label (st.global_counter_if + 1))
        (emit_all (if_jump_lines operation (st.global_counter_if + 1)) st1)).global_counter_while
        = st.global_counter_while + count_while condition := by
      rw [s3.counter_while, s2.counter_while, a1.counter_while, s0.counter_while]; omega
    have a4 := iht _ b2 st3 h3 (by rw [e2i]; omega) (by rw [e2w]; omega)
    have s5 := stretch_emit st3 (line_jmp_endif (st.global_counter_if + 1)) rfl
    have s6 := stretch_emit_label (emit (line_jmp_endif (st.global_counter_if + 1)) st3)
      .if_else_label (st.global_counter_if + 1)
    have e4i : (emit (label_line .if_else_label (st.global_counter_if + 1))
        (emit (line_jmp_endif (st.global_counter_if + 1)) st3)).global_counter_if
        = st.global_counter_if + 1 + count_if condition + count_if if_branch := by
      rw [s6.counter_if, s5.counter_if, a4.counter_if, e2i]; omega
    have e4w : (emit (label_line .if_else_label (st.global_counter_if + 1))
        (emit (line_jmp_endif (st.global_counter_if + 1)) st3)).global_counter_while
        = st.global_counter_while + count_while condition + count_while if_branch := by
      rw [s6.counter_while, s5.counter_while, a4.counter_while, e2w]; omega
    have a7 := compile_else_advances else_branch ihe _ st5 h5 (by rw [e4i]; omega)
      (by rw [e4w]; omega)
    have s8 := stretch_emit_label st5 .endif (st.global_counter_if + 1)
    have total := stretch_trans s0 (stretch_trans a1 (stretch_trans s2 (stretch_trans s3
      (stretch_trans a4 (stretch_trans s5 (stretch_trans s6 (stretch_trans a7 s8)))))))
    refine stretch_congr (stretch_cast total (by omega) (by omega)) ?_
    intro kind n
    simp only [e2i, e2w, e4i, e4w, s0.counter_if, s0.counter_while]
    unfold expected_count
    cases kind <;> simp [LabelKind.of_if] <;> split_ifs <;> omega
  | h_while condition body ihc ihb =>
    intro st b st' h hi hw
    obtain ⟨-, b1, st1, operation, b2, st2, h1, -, h2, rfl⟩ :=
      compile_ast_while_inv _ _ _ _ _ h
    simp only [count_if, count_while] at hi hw ⊢
    have hn : size_incr st.global_counter_while = st.global_counter_while + 1 :=
      size_incr_eq _ (by omega)
    rw [hn] at h1 h2 ⊢
    simp only [line_while_label_eq, line_endwhile_eq] at h1 h2 ⊢
    have s0 := stretch_enter_while st (by omega)
    have s1 := stretch_emit_label (enter_while st) .while_label (st.global_counter_while + 1)
    have e1i : (emit (label_line .while_label (st.global_counter_while + 1))
        (enter_while st)).global_counter_if = st.global_counter_if := by
      rw [s1.counter_if, s0.counter_if]; omega
    have e1w : (emit (label_line .while_label (st.global_counter_while + 1))
        (enter_while st)).global_counter_while = st.global_counter_while + 1 := by
      rw [s1.counter_while, s0.counter_while]
    have a2 := ihc _ b1 st1 h1 (by rw [e1i]; omega) (by rw [e1w]; omega)
    have s3 := stretch_emit_all st1 _
      (while_jump_lines_plain operation (st.global_counter_while + 1))
    have e3i : (emit_all (while_jump_lines operation (st.global_counter_while + 1))
        st1).global_counter_if = st.global_counter_if + count_if condition := by
      rw [s3.counter_if, a2.counter_if, e1i]; omega
    have e3w : (emit_all (while_jump_lines operation (st.global_counter_while + 1))
        st1).global_counter_while = st.global_counter_while + 1 + count_while condition := by
      rw [s3.counter_while, a2.counter_while, e1w]; omega
    have a4 := ihb _ b2 st2 h2 (by rw [e3i]; omega) (by rw [e3w]; omega)
    have s5 := stretch_emit st2 (line_jmp_while (st.global_counter_while + 1)) rfl
    have s6 := stretch_emit_label (emit (line_jmp_while (st.global_counter_while + 1)) st2)
      .endwhile (st.global_counter_while + 1)
    have total := stretch_trans s0 (stretch_trans s1 (stretch_trans a2 (stretch_trans s3
      (stretch_trans a4 (stretch_trans s5 s6)))))
    refine stretch_congr (stretch_cast total (by omega) (by omega)) ?_
    intro kind n
    simp only [e1i, e1w, e3i, e3w]
    unfold expected_count
    cases kind <;> simp [LabelKind.of_if] <;> split_ifs <;> omega
  | h_other type =>
    intro st b st' h _ _
    rw [compile_ast] at h; cases h
    exact advance_refl _

/-! ## Runs on fault-free trees return -/

/-- The general path of `BINARY_OP`: a non-constant node that is not eligible for the shift
compiles its right operand, pushes, compiles its left operand, pops and applies the operator. -/
theorem compile_ast_general (op : Char) (left right : Node) (st : State)
    (hnc : is_constants (.binary_op op left right) = false)
    (h : op ≠ '*' ∨ is_constants right = false ∨
      ∃ v, evaluate_constants right = .ok v ∧ power_of_2 v = some 0) :
    compile_ast (.binary_op op left right) st =
      match compile_ast right st with
      | .error f => .error f
      | .ok (_, st2) =>
        match compile_ast left (emit "push %rdi" st2) with
        | .error f => .error f
        | .ok (_, st3) => .ok (true, emit_all (operator_lines op) (emit "pop %r8" st3)) := by
  rw [compile_ast, if_neg (by simp [hnc])]
  rcases h with h | h | ⟨v, hv, hk⟩
  · simp [h]
  · by_cases hop : op = '*'
    · simp [hop, h]
    · simp [hop]
  · by_cases hop : op = '*'
    · by_cases hr : is_constants right = true
      · simp [hop, hr, hv, hk]
      · simp [hop, hr]
    · simp [hop]

theorem folds_of_constant_fault_free (t : Node) (hc : is_constants t = true)
    (hf : fault_free t = true) : ∃ v, evaluate_constants t = .ok v := by
  cases t with
  | num value => exact ⟨value, rfl⟩
  | binary_op op left right =>
    rw [fault_free, if_pos hc] at hf
    unfold folds at hf
    split at hf
    · rename_i v hv; exact ⟨v, hv⟩
    · cases hf
  | print _ => simp [is_constants] at hc
  | sequence _ => simp [is_constants] at hc
  | var _ => simp [is_constants] at hc
  | let_ _ _ => simp [is_constants] at hc
  | if_ _ _ _ => simp [is_constants] at hc
  | while_ _ _ => simp [is_constants] at hc
  | other _ => simp [is_constants] at hc

theorem condition_op_of_binary (condition : Node) (h : is_binary_op condition = true) :
    ∃ operation, condition_op condition = .ok operation := by
  cases condition <;> simp [is_binary_op] at h
  exact ⟨_, rfl⟩

theorem compile_statements_returns (statements : List Node)
    (ih : ∀ n, n ∈ statements → fault_free n = true →
      ∀ st, ∃ b st', compile_ast n st = .ok (b, st'))
    (hf : fault_free_list statements = true) :
    ∀ st, ∃ st', compile_statements statements st = .ok st' := by
  induction statements with
  | nil => intro st; exact ⟨st, rfl⟩
  | cons statement rest ihl =>
    intro st
    simp only [fault_free_list, Bool.and_eq_true] at hf
    obtain ⟨b1, st1, h1⟩ := ih statement (List.mem_cons_self _ _) hf.1 st
    obtain ⟨st', h2⟩ := ihl (fun n hn => ih n (List.mem_cons_of_mem _ hn)) hf.2 st1
    exact ⟨st', by rw [compile_statements, h1]; exact h2⟩

theorem compile_else_returns (else_branch : Option Node)
    (ih : ∀ n, else_branch = some n → fault_free n = true →
      ∀ st, ∃ b st', compile_ast n st = .ok (b, st'))
    (hf : fault_free_option else_branch = true) :
    ∀ st, ∃ st', compile_else else_branch st = .ok st' := by
  intro st
  cases else_branch with
  | none => exact ⟨st, rfl⟩
  | some else_node =>
    obtain ⟨b1, st1, h1⟩ := ih else_node rfl hf st
    exact ⟨st1, by rw [compile_else, h1]⟩

/-- On a fault-free tree every run of `compile_ast` returns. -/
theorem fault_free_returns :
    ∀ node, fault_free node = true → ∀ st, ∃ b st', compile_ast node st = .ok (b, st') := by
  intro node
  induction node using Node.induct with
  | h_num value => intro _ st; exact ⟨_, _, rfl⟩
  | h_print expr ih =>
    intro hf st
    obtain ⟨b1, st1, h1⟩ := ih hf st
    exact ⟨_, _, by rw [compile_ast, h1]⟩
  | h_sequence statements ih =>
    intro hf st
    obtain ⟨st1, h1⟩ := compile_statements_returns statements ih hf st
    exact ⟨_, _, by rw [compile_ast, h1]⟩
  | h_binary_op op left right ihl ihr =>
    intro hf st
    by_cases hc : is_constants (.binary_op op left right) = true
    · obtain ⟨v, hv⟩ := folds_of_constant_fault_free _ hc hf
      exact ⟨_, _, compile_ast_constant op left right st v hc hv⟩
    · have hnc : is_constants (.binary_op op left right) = false := by simpa using hc
      rw [fault_free, if_neg hc, Bool.and_eq_true] at hf
      have hgen : (op ≠ '*' ∨ is_constants right = false ∨
          ∃ v, evaluate_constants right = .ok v ∧ power_of_2 v = some 0) →
          ∃ b st', compile_ast (.binary_op op left right) st = .ok (b, st') := by
        intro h
        obtain ⟨b1, st2, h1⟩ := ihr hf.2 st
        obtain ⟨b2, st3, h2⟩ := ihl hf.1 (emit "push %rdi" st2)
        exact ⟨true, emit_all (operator_lines op) (emit "pop %r8" st3), by
          rw [compile_ast_general op left right st hnc h]; simp only [h1, h2]⟩
      by_cases hop : op = '*'
      · by_cases hr : is_constants right = true
        · obtain ⟨v, hv⟩ := folds_of_constant_fault_free _ hr hf.2
          obtain ⟨k, hk⟩ := power_of_2_total v
          by_cases hk0 : k = 0
          · exact hgen (Or.inr (Or.inr ⟨v, hv, hk0 ▸ hk⟩))
          · obtain ⟨b1, st1, h1⟩ := ihl hf.1 st
            subst hop
            exact ⟨_, _, by rw [compile_ast_shift left right st v k hnc hr hv hk hk0, h1]⟩
        · exact hgen (Or.inr (Or.inl (by simpa using hr)))
      · exact hgen (Or.inl hop)
  | h_var name => intro _ st; exact ⟨_, _, rfl⟩
  | h_let var value ih =>
    intro hf st
    obtain ⟨b1, st1, h1⟩ := ih hf st
    exact ⟨_, _, by rw [compile_ast, h1]⟩
  | h_if condition if_branch else_branch ihc iht ihe =>
    intro hf st
    simp only [fault_free, Bool.and_eq_true] at hf
    obtain ⟨⟨⟨hb, hfc⟩, hft⟩, hfe⟩ := hf
    obtain ⟨operation, hop⟩ := condition_op_of_binary condition hb
    obtain ⟨b1, st1, h1⟩ := ihc hfc (enter_if st)
    obtain ⟨b2, st3, h3⟩ := iht hft (emit (line_if_label (size_incr st.global_counter_if))
        (emit_all (if_jump_lines operation (size_incr st.global_counter_if)) st1))
    obtain ⟨st5, h5⟩ := compile_else_returns else_branch ihe hfe
      (emit (line_if_else_label (size_incr st.global_counter_if))
        (emit (line_jmp_endif (size_incr st.global_counter_if)) st3))
    refine ⟨true, emit (line_endif (size_incr st.global_counter_if)) st5, ?_⟩
    rw [compile_ast]
    simp only []
    rw [show ({ st with global_counter_if := size_incr st.global_counter_if,
                        taken_if := st.taken_if ++ [size_incr st.global_counter_if] } : State)
          = enter_if st from rfl, h1]
    simp only [hop, h3, h5]
  | h_while condition body ihc ihb =>
    intro hf st
    simp only [fault_free, Bool.and_eq_true] at hf
    obtain ⟨⟨hb, hfc⟩, hfb⟩ := hf
    obtain ⟨operation, hop⟩ := condition_op_of_binary condition hb
    obtain ⟨b1, st1, h1⟩ := ihc hfc (emit (line_while_label (size_incr st.global_counter_while))
        (enter_while st))
    obtain ⟨b2, st2, h2⟩ := ihb hfb
      (emit_all (while_jump_lines operation (size_incr st.global_counter_while)) st1)
    refine ⟨true, emit (line_endwhile (size_incr st.global_counter_while))
        (emit (line_jmp_while (size_incr st.global_counter_while)) st2), ?_⟩
    rw [compile_ast]
    rw [show ({ st with global_counter_while := size_incr st.global_counter_while,
                        taken_while := st.taken_while ++ [size_incr st.global_counter_while] }
            : State) = enter_while st from rfl, h1]
    simp only [hop, h2]
  | h_other type => intro _ st; exact ⟨_, _, rfl⟩

/-- A completed run returns true on every node of a recognised type. -/
theorem result_of_recognised (node : Node) (st : State) (b : Bool) (st' : State)
    (h : compile_ast node st = .ok (b, st')) (hr : recognised node = true) : b = true := by
  cases node with
  | num value => rw [compile_ast] at h; cases h; rfl
  | print expr => exact (compile_ast_print_inv _ _ _ _ h).1
  | sequence statements => exact (compile_ast_sequence_inv _ _ _ _ h).1
  | binary_op op left right => exact (compile_ast_binary_op_inv _ _ _ _ _ _ h).1
  | var name => rw [compile_ast] at h; cases h; rfl
  | let_ var value => exact (compile_ast_let_inv _ _ _ _ _ h).1
  | if_ c t e => exact (compile_ast_if_inv _ _ _ _ _ _ h).1
  | while_ c body => exact (compile_ast_while_inv _ _ _ _ _ h).1
  | other type => simp [recognised] at hr

/-! ## Facts for division by zero, the general path and the shift -/

/-- On a constant tree `evaluate_constants` can only stop with an arithmetic fault, and it does
so when the tree holds a division by a right operand evaluated to `0`. -/
theorem evaluate_constants_zero_division :
    ∀ t, is_constants t = true →
      (∀ f, evaluate_constants t = .error f → f = Fault.arithmetic) ∧
      (has_zero_division t = true → evaluate_constants t = .error Fault.arithmetic) := by
  intro t
  induction t using Node.induct with
  | h_num value =>
    intro _
    exact ⟨fun f h => by simp [evaluate_constants] at h, fun h => by simp [has_zero_division] at h⟩
  | h_binary_op op left right ihl ihr =>
    intro hc
    have hl : is_constants left = true := by
      cases hx : is_constants left <;> simp [is_constants, hx] at hc ⊢
    have hr : is_constants right = true := by
      cases hx : is_constants right <;> simp [is_constants, hx, hl] at hc ⊢
    obtain ⟨el, zl⟩ := ihl hl
    obtain ⟨er, zr⟩ := ihr hr
    obtain ⟨fr, hvr⟩ | ⟨vr, hvr⟩ : (∃ f, evaluate_constants right = .error f) ∨
        (∃ v, evaluate_constants right = .ok v) := by
      cases evaluate_constants right <;> simp
    · have := er fr hvr
      subst this
      constructor
      · intro f h; simp [evaluate_constants, hvr] at h; exact h.symm
      · intro _; simp [evaluate_constants, hvr]
    · obtain ⟨fl, hvl⟩ | ⟨vl, hvl⟩ : (∃ f, evaluate_constants left = .error f) ∨
          (∃ v, evaluate_constants left = .ok v) := by
        cases evaluate_constants left <;> simp
      · have := el fl hvl
        subst this
        constructor
        · intro f h; simp [evaluate_constants, hvr, hvl] at h; exact h.symm
        · intro _; simp [evaluate_constants, hvr, hvl]
      · constructor
        · intro f h
          simp only [evaluate_constants, hvr, hvl] at h
          split_ifs at h
          unfold c_div at h
          split_ifs at h
          cases h; rfl
        · intro hz
          simp only [has_zero_division, hvr, Bool.or_eq_true, Bool.and_eq_true, beq_iff_eq] at hz
          rcases hz with (⟨hop, hv0⟩ | hzl) | hzr
          · subst hop
            have hv0' : vr = 0 := by simpa using hv0
            subst hv0'
            simp [evaluate_constants, hvr, hvl, c_div]
          · rw [zl hzl] at hvl; cases hvl
          · rw [zr hzr] at hvr; cases hvr
  | h_print expr _ => intro h; simp [is_constants] at h
  | h_sequence statements _ => intro h; simp [is_constants] at h
  | h_var name => intro h; simp [is_constants] at h
  | h_let var value _ => intro h; simp [is_constants] at h
  | h_if c t e _ _ _ => intro h; simp [is_constants] at h
  | h_while c b _ _ => intro h; simp [is_constants] at h
  | h_other type => intro h; simp [is_constants] at h

/-- A constant node whose fold stops with a fault makes `compile_ast` stop with that fault. -/
theorem compile_ast_constant_fault (t : Node) (st : State) (f : Fault)
    (hc : is_constants t = true) (he : evaluate_constants t = .error f) :
    compile_ast t st = .error f := by
  cases t with
  | num value => simp [evaluate_constants] at he
  | binary_op op left right => rw [compile_ast, if_pos hc, he]
  | print _ => simp [is_constants] at hc
  | sequence _ => simp [is_constants] at hc
  | var _ => simp [is_constants] at hc
  | let_ _ _ => simp [is_constants] at hc
  | if_ _ _ _ => simp [is_constants] at hc
  | while_ _ _ => simp [is_constants] at hc
  | other _ => simp [is_constants] at hc

/-- A constant node whose fold returns `c` is compiled to the one load of `c`. -/
theorem compile_ast_constant_value (t : Node) (st : State) (c : Int)
    (hc : is_constants t = true) (he : evaluate_constants t = .ok c) :
    compile_ast t st = .ok (true, emit (line_mov_imm c) st) := by
  cases t with
  | num value =>
    simp only [evaluate_constants, Except.ok.injEq] at he
    subst he; rfl
  | binary_op op left right => exact compile_ast_constant op left right st c hc he
  | print _ => simp [is_constants] at hc
  | sequence _ => simp [is_constants] at hc
  | var _ => simp [is_constants] at hc
  | let_ _ _ => simp [is_constants] at hc
  | if_ _ _ _ => simp [is_constants] at hc
  | while_ _ _ => simp [is_constants] at hc
  | other _ => simp [is_constants] at hc

/-- On a negative value `power_of_2` returns `0`. -/
theorem power_of_2_negative (w : Int) (hw : w < 0) : power_of_2 w = some 0 := by
  obtain ⟨r, hr⟩ := power_of_2_total w
  by_cases h0 : r = 0
  · rw [hr, h0]
  · have h2 := power_of_2_sound w r hr h0
    have hpos : (0 : Int) < 2 ^ r := by positivity
    omega

/-- With `fuel` loop tests the loop finishes on every nonzero value below `2^fuel` in absolute
value. -/
theorem power_of_2_loop_bound :
    ∀ fuel value power, value ≠ 0 → value.natAbs < 2 ^ fuel →
      ∃ r, power_of_2_loop fuel value power = some r := by
  intro fuel
  induction fuel with
  | zero => intro value power h0 h; simp at h; omega
  | succ f ih =>
    intro value power h0 h
    rw [power_of_2_loop]
    by_cases h1 : value ≠ 1
    · rw [if_pos h1]
      by_cases h2 : Int.tmod value 2 ≠ 0
      · rw [if_pos h2]; exact ⟨0, rfl⟩
      · rw [if_neg h2]
        have h3 : Int.tmod value 2 = 0 := not_not.mp h2
        have h4 := Int.mul_tdiv_cancel_of_tmod_eq_zero h3
        apply ih
        · intro hz; rw [hz] at h4; omega
        · rw [pow_succ] at h; omega
    · rw [if_neg h1]; exact ⟨power, rfl⟩

/-- More fuel does not change a result of the loop. -/
theorem power_of_2_loop_mono :
    ∀ fuel value power r, power_of_2_loop fuel value power = some r →
      ∀ more, power_of_2_loop (fuel + more) value power = some r := by
  intro fuel
  induction fuel with
  | zero => intro value power r h; simp [power_of_2_loop] at h
  | succ f ih =>
    intro value power r h more
    rw [show f + 1 + more = (f + more) + 1 by omega, power_of_2_loop]
    rw [power_of_2_loop] at h
    by_cases h1 : value ≠ 1
    · rw [if_pos h1] at h ⊢
      by_cases h2 : Int.tmod value 2 ≠ 0
      · rw [if_pos h2] at h ⊢; exact h
      · rw [if_neg h2] at h ⊢; exact ih _ _ _ h more
    · rw [if_neg h1] at h ⊢; exact h

/-- The decimal conversion writes digits only. -/
theorem toDigits_digits : ∀ n c, c ∈ Nat.toDigits 10 n → c.isDigit = true := by
  intro n
  induction n using Nat.strong_induction_on with
  | _ n ih =>
    intro c hc
    rw [toDigits_rec] at hc
    rcases List.mem_append.mp hc with h | h
    · by_cases hn : n / 10 = 0
      · simp [hn] at h
      · simp only [hn, if_false] at h
        exact ih (n / 10) (by omega) c h
    · rw [List.mem_singleton] at h
      subst h
      have hlt : n % 10 < 10 := Nat.mod_lt _ (by decide)
      revert hlt
      generalize n % 10 = d
      intro hlt
      interval_cases d <;> rfl

/-- The text of an immediate load holds no minus sign. -/
theorem line_mov_imm_no_minus (value : Int) : '-' ∉ (line_mov_imm value).data := by
  intro h
  simp only [line_mov_imm, String.data_append, List.mem_append] at h
  rcases h with (h | h) | h
  · revert h; decide
  · have := toDigits_digits _ _ h
    revert this; decide
  · revert h; decide

/-! ## Every completed run follows the rules of `Run` -/

theorem run_of_compile_statements (statements : List Node)
    (ih : ∀ n, n ∈ statements → ∀ st b st', compile_ast n st = .ok (b, st') → Run n st st') :
    ∀ st st', compile_statements statements st = .ok st' → Run (.sequence statements) st st' := by
  induction statements with
  | nil =>
    intro st st' h
    rw [compile_statements] at h
    cases h
    exact Run.sequence_nil st
  | cons statement rest ihl =>
    intro st st' h
    obtain ⟨b1, st1, h1, h2⟩ := compile_statements_cons_inv _ _ _ _ h
    exact Run.sequence_cons (ih statement (List.mem_cons_self _ _) st b1 st1 h1)
      (ihl (fun n hn => ih n (List.mem_cons_of_mem _ hn)) st1 st' h2)

/-- Every completed run of `compile_ast` is a `Run`. -/
theorem run_of_compile_ast :
    ∀ node st b st', compile_ast node st = .ok (b, st') → Run node st st' := by
  intro node
  induction node using Node.induct with
  | h_num value =>
    intro st b st' h
    rw [compile_ast] at h; cases h
    exact Run.num value st
  | h_print expr ih =>
    intro st b st' h
    obtain ⟨-, b1, st1, h1, rfl⟩ := compile_ast_print_inv _ _ _ _ h
    exact Run.print (ih st b1 st1 h1)
  | h_sequence statements ih =>
    intro st b st' h
    obtain ⟨-, h1⟩ := compile_ast_sequence_inv _ _ _ _ h
    exact run_of_compile_statements statements ih st st' h1
  | h_binary_op op left right ihl ihr =>
    intro st b st' h
    obtain ⟨-, hcase⟩ := compile_ast_binary_op_inv _ _ _ _ _ _ h
    rcases hcase with ⟨hc, c, he, rfl⟩ | ⟨hnc, hop, hrc, v, k, b1, st1, hv, hk, hk0, hl, rfl⟩ |
      ⟨hnc, b1, st2, b2, st3, hr, hl, rfl⟩
    · exact Run.fold st hc he
    · subst hop
      exact Run.shift hnc hrc hv hk hk0 (ihl st b1 st1 hl)
    · exact Run.general hnc (ihr st b1 st2 hr) (ihl _ b2 st3 hl)
  | h_var name =>
    intro st b st' h
    rw [compile_ast] at h; cases h
    exact Run.var name st
  | h_let var value ih =>
    intro st b st' h
    obtain ⟨-, b1, st1, h1, rfl⟩ := compile_ast_let_inv _ _ _ _ _ h
    exact Run.let_ (ih st b1 st1 h1)
  | h_if condition if_branch else_branch ihc iht ihe =>
    intro st b st' h
    obtain ⟨-, b1, st1, operation, b2, st3, st5, h1, hop, h3, h5, rfl⟩ :=
      compile_ast_if_inv _ _ _ _ _ _ h
    rcases compile_else_inv _ _ _ h5 with ⟨rfl, rfl⟩ | ⟨else_node, b3, rfl, h6⟩
    · exact Run.if_none hop (ihc _ b1 st1 h1) (iht _ b2 st3 h3)
    · exact Run.if_some hop (ihc _ b1 st1 h1) (iht _ b2 st3 h3) (ihe else_node rfl _ b3 st5 h6)
  | h_while condition body ihc ihb =>
    intro st b st' h
    obtain ⟨-, b1, st1, operation, b2, st2, h1, hop, h2, rfl⟩ :=
      compile_ast_while_inv _ _ _ _ _ h
    exact Run.while_ hop (ihc _ b1 st1 h1) (ihb _ b2 st2 h2)
  | h_other type =>
    intro st b st' h
    rw [compile_ast] at h; cases h
    exact Run.other type st

/-! ## Counters of a completed run, in `size_t` arithmetic -/

theorem counts_refl (st : State) (hi : st.global_counter_if < 2 ^ 64)
    (hw : st.global_counter_while < 2 ^ 64) : Counts st st 0 0 := by
  refine ⟨?_, ?_, by simp, by simp⟩
  · rw [Nat.add_zero, Nat.mod_eq_of_lt hi]
  · rw [Nat.add_zero, Nat.mod_eq_of_lt hw]

theorem map_range_add (f : Nat → Nat) (k1 k2 : Nat) :
    (List.range (k1 + k2)).map f
      = (List.range k1).map f ++ (List.range k2).map (fun i => f (k1 + i)) := by
  rw [List.range_add, List.map_append, List.map_map]
  rfl

theorem counts_trans {a b c : State} {k1 w1 k2 w2 : Nat}
    (h1 : Counts a b k1 w1) (h2 : Counts b c k2 w2) : Counts a c (k1 + k2) (w1 + w2) := by
  obtain ⟨i1, j1, t1, u1⟩ := h1
  obtain ⟨i2, j2, t2, u2⟩ := h2
  refine ⟨?_, ?_, ?_, ?_⟩
  · rw [i2, i1]; omega
  · rw [j2, j1]; omega
  · rw [t2, t1, List.append_assoc, map_range_add, i1]
    congr 2
    apply List.map_congr_left
    intro i _
    show ((a.global_counter_if + k1) % 2 ^ 64 + 1 + i) % 2 ^ 64
      = (a.global_counter_if + 1 + (k1 + i)) % 2 ^ 64
    omega
  · rw [u2, u1, List.append_assoc, map_range_add, j1]
    congr 2
    apply List.map_congr_left
    intro i _
    show ((a.global_counter_while + w1) % 2 ^ 64 + 1 + i) % 2 ^ 64
      = (a.global_counter_while + 1 + (w1 + i)) % 2 ^ 64
    omega

theorem counts_enter_if (st : State) (hw : st.global_counter_while < 2 ^ 64) :
    Counts st (enter_if st) 1 0 := by
  refine ⟨rfl, ?_, ?_, by simp [enter_if]⟩
  · show st.global_counter_while = _
    rw [Nat.add_zero, Nat.mod_eq_of_lt hw]
  · simp [enter_if, size_incr, List.range_succ]

theorem counts_enter_while (st : State) (hi : st.global_counter_if < 2 ^ 64) :
    Counts st (enter_while st) 0 1 := by
  refine ⟨?_, rfl, by simp [enter_while], ?_⟩
  · show st.global_counter_if = _
    rw [Nat.add_zero, Nat.mod_eq_of_lt hi]
  · simp [enter_while, size_incr, List.range_succ]

/-- After a stretch counted by `Counts` both counters are below `2^64`. -/
theorem counts_bound {a b : State} {k w : Nat} (h : Counts a b k w) :
    b.global_counter_if < 2 ^ 64 ∧ b.global_counter_while < 2 ^ 64 := by
  obtain ⟨i1, j1, -, -⟩ := h
  rw [i1, j1]
  exact ⟨Nat.mod_lt _ (by norm_num), Nat.mod_lt _ (by norm_num)⟩

/-- A completed run advances each counter, modulo `2^64`, by the number of `IF` (`WHILE`)
nodes of the tree, and logs the successive counter values in the order the nodes are entered. -/
theorem run_counts {node : Node} {st st' : State} (h : Run node st st') :
    st.global_counter_if < 2 ^ 64 → st.global_counter_while < 2 ^ 64 →
      Counts st st' (count_if node) (count_while node) := by
  induction h with
  | num value st => intro hi hw; exact counts_refl st hi hw
  | print _ ih => intro hi hw; exact ih hi hw
  | sequence_nil st => intro hi hw; exact counts_refl st hi hw
  | sequence_cons _ _ ih1 ih2 =>
    intro hi hw
    have c1 := ih1 hi hw
    exact counts_trans c1 (ih2 (counts_bound c1).1 (counts_bound c1).2)
  | fold st hc _ =>
    intro hi hw
    rw [(count_of_is_constants _ hc).1, (count_of_is_constants _ hc).2]
    exact counts_refl st hi hw
  | shift _ hrc _ _ _ _ ih =>
    intro hi hw
    simp only [count_if, count_while, (count_of_is_constants _ hrc).1,
      (count_of_is_constants _ hrc).2, Nat.add_zero]
    exact ih hi hw
  | @general op left right st st2 st3 _ _ _ ihr ihl =>
    intro hi hw
    have c1 := ihr hi hw
    have c2 : Counts st2 st3 (count_if left) (count_while left) :=
      ihl (counts_bound c1).1 (counts_bound c1).2
    have c3 := counts_trans c1 c2
    simp only [count_if, count_while]
    rw [Nat.add_comm (count_if left), Nat.add_comm (count_while left)]
    exact c3
  | var name st => intro hi hw; exact counts_refl st hi hw
  | let_ _ ih => intro hi hw; exact ih hi hw
  | @if_none condition if_branch st st1 st3 operation _ _ _ ihc iht =>
    intro hi hw
    have c0 := counts_enter_if st hw
    have c1 := ihc (counts_bound c0).1 (counts_bound c0).2
    have c2 : Counts st1 st3 (count_if if_branch) (count_while if_branch) :=
      iht (counts_bound c1).1 (counts_bound c1).2
    have c3 := counts_trans c0 (counts_trans c1 c2)
    simp only [count_if, count_while, count_if_option, count_while_option, Nat.add_zero]
    have e1 : 1 + count_if condition + count_if if_branch
        = 1 + (count_if condition + count_if if_branch) := by omega
    have e2 : count_while condition + count_while if_branch
        = 0 + (count_while condition + count_while if_branch) := by omega
    rw [e1, e2]
    exact c3
  | @if_some condition if_branch else_node st st1 st3 st5 operation _ _ _ _ ihc iht ihe =>
    intro hi hw
    have c0 := counts_enter_if st hw
    have c1 := ihc (counts_bound c0).1 (counts_bound c0).2
    have c2 : Counts st1 st3 (count_if if_branch) (count_while if_branch) :=
      iht (counts_bound c1).1 (counts_bound c1).2
    have c4 : Counts st3 st5 (count_if else_node) (count_while else_node) :=
      ihe (counts_bound c2).1 (counts_bound c2).2
    have c5 := counts_trans c0 (counts_trans c1 (counts_trans c2 c4))
    simp only [count_if, count_while, count_if_option, count_while_option]
    have e1 : 1 + count_if condition + count_if if_branch + count_if else_node
        = 1 + (count_if condition + (count_if if_branch + count_if else_node)) := by omega
    have e2 : count_while condition + count_while if_branch + count_while else_node
        = 0 + (count_while condition + (count_while if_branch + count_while else_node)) := by
      omega
    rw [e1, e2]
    exact c5
  | @while_ condition body st st1 st2 operation _ _ _ ihc ihb =>
    intro hi hw
    have c0 := counts_enter_while st hi
    have c1 : Counts (enter_while st) st1 (count_if condition) (count_while condition) :=
      ihc (counts_bound c0).1 (counts_bound c0).2
    have c2 : Counts st1 st2 (count_if body) (count_while body) :=
      ihb (counts_bound c1).1 (counts_bound c1).2
    have c3 := counts_trans c0 (counts_trans c1 c2)
    simp only [count_if, count_while]
    have e1 : count_if condition + count_if body
        = 0 + (count_if condition + count_if body) := by omega
    have e2 : 1 + count_while condition + count_while body
        = 1 + (count_while condition + count_while body) := by omega
    rw [e1, e2]
    exact c3
  | other type st => intro hi hw; exact counts_refl st hi hw

/-! ## Facts about stack depth and jump targets -/

theorem depth_after_append (a b : List String) :
    ∀ depth, depth_after depth (a ++ b)
      = (depth_after depth a).bind (fun depth1 => depth_after depth1 b) := by
  induction a with
  | nil => intro depth; rfl
  | cons line rest ih =>
    intro depth
    simp only [List.cons_append, depth_after]
    cases stack_step depth line with
    | none => rfl
    | some depth1 => exact ih depth1

theorem stack_step_inert (line : String) (h : has_stack_head line = false) (depth : Nat) :
    stack_step depth line = some depth := by
  have h1 : line ≠ "push %rdi" := by
    intro he; rw [he] at h; exact absurd h (by decide)
  have h2 : line ≠ "pop %r8" := by
    intro he; rw [he] at h; exact absurd h (by decide)
  simp [stack_step, h1, h2]

theorem depth_after_inert (lines : List String)
    (h : ∀ line, line ∈ lines → has_stack_head line = false) :
    ∀ depth, depth_after depth lines = some depth := by
  induction lines with
  | nil => intro depth; rfl
  | cons line rest ih =>
    intro depth
    rw [depth_after, stack_step_inert line (h line (List.mem_cons_self _ _))]
    exact ih (fun l hl => h l (List.mem_cons_of_mem _ hl)) depth

/-- From a completed scan: the pushes and pops add up, and no initial part pops more than it
has pushed on top of the starting depth. -/
theorem depth_after_counts (code : List String) :
    ∀ depth depth', depth_after depth code = some depth' →
      code.count "push %rdi" + depth = code.count "pop %r8" + depth' ∧
      ∀ n, (code.take n).count "pop %r8" ≤ (code.take n).count "push %rdi" + depth := by
  induction code with
  | nil =>
    intro depth depth' h
    simp only [depth_after, Option.some.injEq] at h
    subst h
    simp
  | cons line rest ih =>
    intro depth depth' h
    rw [depth_after] at h
    by_cases h1 : line = "push %rdi"
    · subst h1
      simp only [stack_step, if_true] at h
      obtain ⟨e, p⟩ := ih _ _ h
      have hne : ("push %rdi" == "pop %r8") = false := by decide
      constructor
      · simp only [List.count_cons, beq_self_eq_true, if_true, hne]
        simp only [Bool.false_eq_true, if_false]
        omega
      · intro n
        cases n with
        | zero => simp
        | succ n =>
          have := p n
          simp only [List.take_succ_cons, List.count_cons, beq_self_eq_true, if_true, hne]
          simp only [Bool.false_eq_true, if_false]
          omega
    · by_cases h2 : line = "pop %r8"
      · subst h2
        have hne : ("pop %r8" == "push %rdi") = false := by decide
        simp only [stack_step, show ("pop %r8" : String) ≠ "push %rdi" by decide, if_false,
          if_true] at h
        by_cases hd : depth = 0
        · simp [hd] at h
        · simp only [hd, if_false] at h
          obtain ⟨e, p⟩ := ih _ _ h
          constructor
          · simp only [List.count_cons, beq_self_eq_true, if_true, hne]
            simp only [Bool.false_eq_true, if_false]
            omega
          · intro n
            cases n with
            | zero => simp
            | succ n =>
              have := p n
              simp only [List.take_succ_cons, List.count_cons, beq_self_eq_true, if_true, hne]
              simp only [Bool.false_eq_true, if_false]
              omega
      · simp only [stack_step, h1, h2, if_false] at h
        obtain ⟨e, p⟩ := ih _ _ h
        have hb1 : (line == "push %rdi") = false := by simpa using h1
        have hb2 : (line == "pop %r8") = false := by simpa using h2
        constructor
        · simp only [List.count_cons, hb1, hb2, Bool.false_eq_true, if_false]
          omega
        · intro n
          cases n with
          | zero => simp
          | succ n =>
            have := p n
            simp only [List.take_succ_cons, List.count_cons, hb1, hb2, Bool.false_eq_true,
              if_false]
            omega

theorem jump_target_inert (line : String) (h : is_inert line = true) :
    jump_target line = none := by
  simp only [is_inert, Bool.and_eq_true, Bool.not_eq_true', beq_eq_false_iff_ne, ne_eq] at h
  simp [jump_target, h.2]

theorem jumps_closed_append {a b defs : List String}
    (ha : JumpsClosed a defs) (hb : JumpsClosed b defs) : JumpsClosed (a ++ b) defs := by
  intro line hl
  rcases List.mem_append.mp hl with h | h
  · exact ha line h
  · exact hb line h

theorem jumps_closed_mono {a defs defs' : List String}
    (ha : JumpsClosed a defs) (hsub : ∀ x, x ∈ defs → x ∈ defs') : JumpsClosed a defs' := by
  intro line hl target ht
  exact ⟨hsub _ (ha line hl target ht).1, (ha line hl target ht).2⟩

theorem jumps_closed_inert (a defs : List String)
    (h : ∀ line, line ∈ a → is_inert line = true) : JumpsClosed a defs := by
  intro line hl target ht
  rw [jump_target_inert line (h line hl)] at ht
  cases ht

theorem stack_ok_append {a b : List String}
    (ha : ∀ depth, depth_after depth a = some depth)
    (hb : ∀ depth, depth_after depth b = some depth) :
    ∀ depth, depth_after depth (a ++ b) = some depth := by
  intro depth
  rw [depth_after_append, ha depth]
  exact hb depth

theorem stack_ok_push_pop {a : List String}
    (ha : ∀ depth, depth_after depth a = some depth) :
    ∀ depth, depth_after depth ("push %rdi" :: (a ++ ["pop %r8"])) = some depth := by
  intro depth
  have h1 : stack_step depth "push %rdi" = some (depth + 1) := by simp [stack_step]
  have h2 : depth_after (depth + 1) ["pop %r8"] = some depth := by
    simp [depth_after, stack_step]
  rw [depth_after, h1]
  show depth_after (depth + 1) (a ++ ["pop %r8"]) = some depth
  rw [depth_after_append, ha (depth + 1)]
  exact h2

theorem label_line_inert (kind : LabelKind) (n : Nat) : is_inert (label_line kind n) = true := by
  cases kind <;> rfl

theorem operator_lines_inert (op : Char) :
    ∀ line, line ∈ operator_lines op → is_inert line = true := by
  intro line hl
  unfold operator_lines at hl
  split_ifs at hl <;> simp only [List.mem_cons, List.mem_singleton, List.not_mem_nil,
    or_false] at hl <;> (try rcases hl with h | h | h | h) <;> subst_vars <;> rfl

theorem if_jump_lines_stack (op : Char) (n : Nat) :
    ∀ line, line ∈ if_jump_lines op n → has_stack_head line = false := by
  intro line hl
  unfold if_jump_lines at hl
  split_ifs at hl <;> simp only [List.mem_singleton, List.not_mem_nil] at hl <;> subst_vars <;> rfl

theorem while_jump_lines_stack (op : Char) (n : Nat) :
    ∀ line, line ∈ while_jump_lines op n → has_stack_head line = false := by
  intro line hl
  unfold while_jump_lines at hl
  split_ifs at hl <;> simp only [List.mem_singleton, List.not_mem_nil] at hl <;> subst_vars <;> rfl

theorem inert_stack (line : String) (h : is_inert line = true) : has_stack_head line = false := by
  simp only [is_inert, Bool.and_eq_true, Bool.not_eq_true'] at h
  exact h.1

/-- A target that starts differently from `IF_label` is no `IF_labelN`. -/
theorem not_if_label_of_head (target : String) (h : head4 target ≠ "IF_l".data) (m : Nat) :
    target ≠ "IF_label" ++ fmt_dec m := by
  intro he
  rw [he] at h
  exact h rfl

theorem if_jump_lines_closed (op : Char) (n : Nat) (defs : List String)
    (hd : line_if_else_label n ∈ defs) : JumpsClosed (if_jump_lines op n) defs := by
  intro line hl target ht
  have ht2 : jump_target line = some ("IF_ELSE_label" ++ fmt_dec n) := by
    unfold if_jump_lines at hl
    split_ifs at hl <;> simp only [List.mem_singleton, List.not_mem_nil] at hl <;>
      subst_vars <;> rfl
  rw [ht2] at ht
  cases ht
  exact ⟨hd, not_if_label_of_head _ (by
    rw [show head4 ("IF_ELSE_label" ++ fmt_dec n) = "IF_E".data from rfl]; decide)⟩

theorem while_jump_lines_closed (op : Char) (n : Nat) (defs : List String)
    (hd : line_endwhile n ∈ defs) : JumpsClosed (while_jump_lines op n) defs := by
  intro line hl target ht
  have ht2 : jump_target line = some ("ENDWHILE_label" ++ fmt_dec n) := by
    unfold while_jump_lines at hl
    split_ifs at hl <;> simp only [List.mem_singleton, List.not_mem_nil] at hl <;>
      subst_vars <;> rfl
  rw [ht2] at ht
  cases ht
  exact ⟨hd, not_if_label_of_head _ (by
    rw [show head4 ("ENDWHILE_label" ++ fmt_dec n) = "ENDW".data from rfl]; decide)⟩

theorem jmp_endif_closed (n : Nat) (defs : List String) (hd : line_endif n ∈ defs) :
    JumpsClosed [line_jmp_endif n] defs := by
  intro line hl target ht
  rw [List.mem_singleton.mp hl] at ht
  have ht2 : jump_target (line_jmp_endif n) = some ("ENDIF" ++ fmt_dec n) := rfl
  rw [ht2] at ht
  cases ht
  exact ⟨hd, not_if_label_of_head _ (by
    rw [show head4 ("ENDIF" ++ fmt_dec n) = "ENDI".data from rfl]; decide)⟩

theorem jmp_while_closed (n : Nat) (defs : List String) (hd : line_while_label n ∈ defs) :
    JumpsClosed [line_jmp_while n] defs := by
  intro line hl target ht
  rw [List.mem_singleton.mp hl] at ht
  have ht2 : jump_target (line_jmp_while n) = some ("WHILE_label" ++ fmt_dec n) := rfl
  rw [ht2] at ht
  cases ht
  exact ⟨hd, not_if_label_of_head _ (by
    rw [show head4 ("WHILE_label" ++ fmt_dec n) = "WHIL".data from rfl]; decide)⟩

theorem closed_nil : Closed [] :=
  ⟨fun _ => rfl, fun _ hl => by cases hl⟩

theorem closed_append {a b : List String} (ha : Closed a) (hb : Closed b) : Closed (a ++ b) :=
  ⟨stack_ok_append ha.1 hb.1,
   jumps_closed_append (jumps_closed_mono ha.2 (fun _ hx => List.mem_append_left _ hx))
     (jumps_closed_mono hb.2 (fun _ hx => List.mem_append_right _ hx))⟩

theorem closed_inert (lines : List String)
    (h : ∀ line, line ∈ lines → is_inert line = true) : Closed lines :=
  ⟨depth_after_inert lines (fun l hl => inert_stack l (h l hl)), jumps_closed_inert _ _ h⟩

/-- The general case of `BINARY_OP` keeps the text closed: the `push` is matched by the
`pop`. -/
theorem closed_general (op : Char) {r l : List String} (hr : Closed r) (hl : Closed l) :
    Closed (r ++ ("push %rdi" :: (l ++ ["pop %r8"])) ++ operator_lines op) := by
  refine closed_append (closed_append hr ⟨stack_ok_push_pop hl.1, ?_⟩)
    (closed_inert _ (operator_lines_inert op))
  intro line hmem target ht
  rcases List.mem_cons.mp hmem with h | h
  · subst h
    rw [show jump_target "push %rdi" = none from rfl] at ht
    cases ht
  · rcases List.mem_append.mp h with h | h
    · exact ⟨List.mem_cons_of_mem _ (List.mem_append_left _ (hl.2 line h target ht).1),
        (hl.2 line h target ht).2⟩
    · rw [List.mem_singleton.mp h, show jump_target "pop %r8" = none from rfl] at ht
      cases ht

/-- The text of an `IF` node is closed when the text of its parts is. -/
theorem closed_if (op : Char) (n : Nat) {c t e : List String}
    (hc : Closed c) (ht : Closed t) (he : Closed e) :
    Closed (c ++ (if_jump_lines op n ++ [line_if_label n]) ++ t
      ++ [line_jmp_endif n, line_if_else_label n] ++ e ++ [line_endif n]) := by
  constructor
  · exact stack_ok_append (stack_ok_append (stack_ok_append (stack_ok_append (stack_ok_append
      hc.1 (depth_after_inert _ (by
        intro line hl
        rcases List.mem_append.mp hl with h | h
        · exact if_jump_lines_stack op n line h
        · rw [List.mem_singleton.mp h]; rfl))) ht.1)
      (depth_after_inert _ (by
        intro line hl
        simp only [List.mem_cons, List.mem_singleton, List.not_mem_nil, or_false] at hl
        rcases hl with h | h <;> subst h <;> rfl))) he.1)
      (depth_after_inert _ (by
        intro line hl
        rw [List.mem_singleton.mp hl]; rfl))
  · have sub : ∀ part : List String, (∀ x, x ∈ part →
        x ∈ c ∨ x ∈ if_jump_lines op n ∨ x = line_if_label n ∨ x ∈ t ∨ x = line_jmp_endif n ∨
          x = line_if_else_label n ∨ x ∈ e ∨ x = line_endif n) →
        ∀ x, x ∈ part → x ∈ (c ++ (if_jump_lines op n ++ [line_if_label n]) ++ t
          ++ [line_jmp_endif n, line_if_else_label n] ++ e ++ [line_endif n]) := by
      intro part hp x hx
      have := hp x hx
      simp only [List.mem_append, List.mem_cons, List.mem_singleton, List.not_mem_nil,
        or_false]
      tauto
    have d1 : line_if_else_label n ∈ (c ++ (if_jump_lines op n ++ [line_if_label n]) ++ t
          ++ [line_jmp_endif n, line_if_else_label n] ++ e ++ [line_endif n]) := by simp
    have d2 : line_endif n ∈ (c ++ (if_jump_lines op n ++ [line_if_label n]) ++ t
          ++ [line_jmp_endif n, line_if_else_label n] ++ e ++ [line_endif n]) := by simp
    refine jumps_closed_append (jumps_closed_append (jumps_closed_append (jumps_closed_append
      (jumps_closed_append ?_ ?_) ?_) ?_) ?_) ?_
    · exact jumps_closed_mono hc.2 (sub c (fun x hx => Or.inl hx))
    · exact jumps_closed_append (if_jump_lines_closed op n _ d1)
        (jumps_closed_inert _ _ (by
          intro line hl; rw [List.mem_singleton.mp hl]; exact label_line_inert .if_label n))
    · exact jumps_closed_mono ht.2 (sub t (fun x hx => by tauto))
    · exact jumps_closed_append (a := [line_jmp_endif n]) (b := [line_if_else_label n])
        (jmp_endif_closed n _ d2)
        (jumps_closed_inert _ _ (by
          intro line hl; rw [List.mem_singleton.mp hl]
          exact label_line_inert .if_else_label n))
    · exact jumps_closed_mono he.2 (sub e (fun x hx => by tauto))
    · exact jumps_closed_inert _ _ (by
        intro line hl; rw [List.mem_singleton.mp hl]; exact label_line_inert .endif n)

/-- The text of a `WHILE` node is closed when the text of its parts is. -/
theorem closed_while (op : Char) (n : Nat) {c b : List String}
    (hc : Closed c) (hb : Closed b) :
    Closed ([line_while_label n] ++ c ++ while_jump_lines op n ++ b
      ++ [line_jmp_while n, line_endwhile n]) := by
  constructor
  · exact stack_ok_append (stack_ok_append (stack_ok_append (stack_ok_append
      (depth_after_inert _ (by
        intro line hl
        rw [List.mem_singleton.mp hl]; rfl)) hc.1)
      (depth_after_inert _ (while_jump_lines_stack op n))) hb.1)
      (depth_after_inert _ (by
        intro line hl
        simp only [List.mem_cons, List.mem_singleton, List.not_mem_nil, or_false] at hl
        rcases hl with h | h <;> subst h <;> rfl))
  · have sub : ∀ part : List String, (∀ x, x ∈ part →
        x = line_while_label n ∨ x ∈ c ∨ x ∈ while_jump_lines op n ∨ x ∈ b ∨
          x = line_jmp_while n ∨ x = line_endwhile n) →
        ∀ x, x ∈ part → x ∈ ([line_while_label n] ++ c ++ while_jump_lines op n ++ b
          ++ [line_jmp_while n, line_endwhile n]) := by
      intro part hp x hx
      have := hp x hx
      simp only [List.mem_append, List.mem_cons, List.mem_singleton, List.not_mem_nil,
        or_false]
      tauto
    have d1 : line_while_label n ∈ ([line_while_label n] ++ c ++ while_jump_lines op n ++ b
          ++ [line_jmp_while n, line_endwhile n]) := by simp
    have d2 : line_endwhile n ∈ ([line_while_label n] ++ c ++ while_jump_lines op n ++ b
          ++ [line_jmp_while n, line_endwhile n]) := by simp
    refine jumps_closed_append (jumps_closed_append (jumps_closed_append
      (jumps_closed_append ?_ ?_) ?_) ?_) ?_
    · exact jumps_closed_inert _ _ (by
        intro line hl; rw [List.mem_singleton.mp hl]; exact label_line_inert .while_label n)
    · exact jumps_closed_mono hc.2 (sub c (fun x hx => by tauto))
    · exact while_jump_lines_closed op n _ d2
    · exact jumps_closed_mono hb.2 (sub b (fun x hx => by tauto))
    · exact jumps_closed_append (a := [line_jmp_while n]) (b := [line_endwhile n])
        (jmp_while_closed n _ d1)
        (jumps_closed_inert _ _ (by
          intro line hl; rw [List.mem_singleton.mp hl]
          exact label_line_inert .endwhile n))

/-- The text written by a completed run is closed: it keeps the stack balanced, and each of its
jumps names a label that it defines. -/
theorem run_closed {node : Node} {st st' : State} (h : Run node st st') :
    ∃ code, st'.out = st.out ++ code ∧ Closed code := by
  induction h with
  | num value st =>
    exact ⟨[line_mov_imm value], rfl, closed_inert _ (by
      intro line hl; rw [List.mem_singleton.mp hl]; rfl)⟩
  | print _ ih =>
    obtain ⟨c, hc, cl⟩ := ih
    exact ⟨c ++ ["call print_int"], by simp [emit, hc],
      closed_append cl (closed_inert _ (by
        intro line hl; rw [List.mem_singleton.mp hl]; rfl))⟩
  | sequence_nil st => exact ⟨[], by simp, closed_nil⟩
  | sequence_cons _ _ ih1 ih2 =>
    obtain ⟨c1, h1, cl1⟩ := ih1
    obtain ⟨c2, h2, cl2⟩ := ih2
    exact ⟨c1 ++ c2, by rw [h2, h1, List.append_assoc], closed_append cl1 cl2⟩
  | @fold op left right st c _ _ =>
    exact ⟨[line_mov_imm c], rfl, closed_inert _ (by
      intro line hl; rw [List.mem_singleton.mp hl]; rfl)⟩
  | @shift left right st st1 v k _ _ _ _ _ _ ih =>
    obtain ⟨c, hc, cl⟩ := ih
    exact ⟨c ++ [line_sal k], by simp [emit, hc],
      closed_append cl (closed_inert _ (by
        intro line hl; rw [List.mem_singleton.mp hl]; rfl))⟩
  | @general op left right st st2 st3 _ _ _ ihr ihl =>
    obtain ⟨r, hr, clr⟩ := ihr
    obtain ⟨l, hl, cll⟩ := ihl
    refine ⟨r ++ ("push %rdi" :: (l ++ ["pop %r8"])) ++ operator_lines op, ?_,
      closed_general op clr cll⟩
    simp [emit, emit_all, hl, hr]
  | var name st =>
    exact ⟨[line_load name], rfl, closed_inert _ (by
      intro line hl; rw [List.mem_singleton.mp hl]; rfl)⟩
  | @let_ var value st st1 _ ih =>
    obtain ⟨c, hc, cl⟩ := ih
    exact ⟨c ++ [line_store var], by simp [emit, hc],
      closed_append cl (closed_inert _ (by
        intro line hl; rw [List.mem_singleton.mp hl]; rfl))⟩
  | @if_none condition if_branch st st1 st3 operation _ _ _ ihc iht =>
    obtain ⟨c, hc, clc⟩ := ihc
    obtain ⟨t, ht, clt⟩ := iht
    refine ⟨_, ?_, closed_if operation (size_incr st.global_counter_if) clc clt closed_nil⟩
    simp [emit, emit_all, enter_if, ht, hc]
  | @if_some condition if_branch else_node st st1 st3 st5 operation _ _ _ _ ihc iht ihe =>
    obtain ⟨c, hc, clc⟩ := ihc
    obtain ⟨t, ht, clt⟩ := iht
    obtain ⟨e, he, cle⟩ := ihe
    refine ⟨_, ?_, closed_if operation (size_incr st.global_counter_if) clc clt cle⟩
    simp [emit, emit_all, enter_if, he, ht, hc]
  | @while_ condition body st st1 st2 operation _ _ _ ihc ihb =>
    obtain ⟨c, hc, clc⟩ := ihc
    obtain ⟨b, hb, clb⟩ := ihb
    refine ⟨_, ?_, closed_while operation (size_incr st.global_counter_while) clc clb⟩
    simp [emit, emit_all, enter_while, hb, hc]
  | other type st => exact ⟨[], by simp, closed_nil⟩

/-! ## Claims -/

/-- C2. For every 64-bit signed value `v`: `power_of_2 v` returns `k` when `v = 2^k` with
`1 ≤ k ≤ 62`, and returns `0` in every other case; equivalently, the result is nonzero exactly
when `v` is a power of two greater than `1`, and then `2^result = v`. -/
theorem power_of_2_spec (v : Int) (hv : in_int64 v) :
    (∀ k : Nat, 1 ≤ k → k ≤ 62 → v = 2 ^ k → power_of_2 v = some k) ∧
    ((¬ ∃ k : Nat, 1 ≤ k ∧ k ≤ 62 ∧ v = 2 ^ k) → power_of_2 v = some 0) ∧
    (∃ r, power_of_2 v = some r ∧ (r ≠ 0 ↔ ∃ k : Nat, 1 ≤ k ∧ v = 2 ^ k) ∧
      (r ≠ 0 → (2 : Int) ^ r = v)) := by
  have hbound : ∀ r : Nat, v = 2 ^ r → r ≤ 62 := by
    intro r hr
    by_contra hlt
    have h63 : (2 : Int) ^ 63 ≤ 2 ^ r := pow_le_pow_right₀ (by norm_num) (by omega)
    unfold in_int64 INT64_MAX at hv
    omega
  refine ⟨?_, ?_, ?_⟩
  · intro k _ _ hk
    rw [hk]; exact power_of_2_pow k
  · intro hno
    obtain ⟨r, hr⟩ := power_of_2_total v
    by_cases h0 : r = 0
    · rw [hr, h0]
    · have hv2 := power_of_2_sound v r hr h0
      exact absurd ⟨r, by omega, hbound r hv2, hv2⟩ hno
  · obtain ⟨r, hr⟩ := power_of_2_total v
    refine ⟨r, hr, ⟨?_, ?_⟩, ?_⟩
    · intro h0
      exact ⟨r, by omega, power_of_2_sound v r hr h0⟩
    · rintro ⟨k, hk1, hk⟩
      rw [hk, power_of_2_pow k] at hr
      have : k = r := Option.some.inj hr
      omega
    · intro h0
      exact (power_of_2_sound v r hr h0).symm

/-- Instance of C2: `8 = 2^3` is a 64-bit value and `power_of_2` returns `3` on it. -/
theorem power_of_2_spec_witness : in_int64 8 ∧ power_of_2 8 = some 3 :=
  ⟨by decide, (power_of_2_spec 8 (by decide)).1 3 (by decide) (by decide) (by norm_num)⟩

/-- C1, as stated, fails: `((0 - 9223372036854775807) - 1) / (0 - 1)` is an arithmetic tree
whose only divisor has the value `-1`, its value under wrap-around arithmetic is `INT64_MIN`, yet
`compile_ast` stops with an arithmetic fault in the fold (the quotient `INT64_MIN / -1` does not
fit) and emits no load. -/
theorem constant_fold_counterexample :
    arith_tree min_over_minus_one = true ∧ no_zero_divisor min_over_minus_one = true ∧
    arith_value min_over_minus_one = INT64_MIN ∧
    compile_ast min_over_minus_one State.initial = .error Fault.arithmetic ∧
    compile_ast min_over_minus_one State.initial ≠
      .ok (true, emit (line_mov_imm (arith_value min_over_minus_one)) State.initial) := by
  decide

/-- C1 (amended). For every tree built only from `NumberLiteral` leaves and the operators
`+ - * /`, with no division whose divisor evaluates to `0` and no division of `INT64_MIN` by
`-1`, `compile_ast` returns true having emitted exactly one line, the immediate load
`mov $c, %rdi` of the value `c` of the tree under 64-bit signed wrap-around arithmetic with
division truncating toward zero; `evaluate_constants` returns that same `c`, and no code for any
operand is emitted. -/
theorem constant_fold_emits_one_load (t : Node) (st : State)
    (harith : arith_tree t = true) (hzero : no_zero_divisor t = true)
    (hover : no_overflowing_division t = true) :
    evaluate_constants t = .ok (arith_value t) ∧
    compile_ast t st = .ok (true, emit (line_mov_imm (arith_value t)) st) ∧
    (emit (line_mov_imm (arith_value t)) st).out
      = st.out ++ ["mov $" ++ toString (to_u64 (arith_value t)) ++ ", %rdi"] := by
  obtain ⟨he, _, hc⟩ := evaluate_constants_arith t harith hzero hover
  refine ⟨he, ?_, rfl⟩
  cases t with
  | num value => rfl
  | binary_op op left right => exact compile_ast_constant op left right st _ hc he
  | print _ => simp [arith_tree] at harith
  | sequence _ => simp [arith_tree] at harith
  | var _ => simp [arith_tree] at harith
  | let_ _ _ => simp [arith_tree] at harith
  | if_ _ _ _ => simp [arith_tree] at harith
  | while_ _ _ => simp [arith_tree] at harith
  | other _ => simp [arith_tree] at harith

/-- Instances of C1: `(0 - 7) / 2` emits the single load of the 64-bit pattern of `-3`,
`2 + 3` the load of `5`, and `7 / 2` the load of `3`. -/
theorem constant_fold_emits_one_load_witness :
    arith_tree (.binary_op '/' (.binary_op '-' (.num 0) (.num 7)) (.num 2)) = true ∧
    compile_ast (.binary_op '/' (.binary_op '-' (.num 0) (.num 7)) (.num 2)) State.initial
      = .ok (true, emit "mov $18446744073709551613, %rdi" State.initial) ∧
    compile_ast (.binary_op '+' (.num 2) (.num 3)) State.initial
      = .ok (true, emit "mov $5, %rdi" State.initial) ∧
    compile_ast (.binary_op '/' (.num 7) (.num 2)) State.initial
      = .ok (true, emit "mov $3, %rdi" State.initial) :=
  ⟨by decide,
   (constant_fold_emits_one_load (.binary_op '/' (.binary_op '-' (.num 0) (.num 7)) (.num 2))
      State.initial (by decide) (by decide) (by decide)).2.1,
   (constant_fold_emits_one_load (.binary_op '+' (.num 2) (.num 3))
      State.initial (by decide) (by decide) (by decide)).2.1,
   (constant_fold_emits_one_load (.binary_op '/' (.num 7) (.num 2))
      State.initial (by decide) (by decide) (by decide)).2.1⟩

/-- C3. For every `*` node that is not itself constant and whose right operand is constant
with `power_of_2 (evaluate_constants right) = k ≠ 0`, `compile_ast` does what `compile_ast left`
does and then emits the single line `sal $k, %rdi`: the output is the output of the left operand
followed by that line, and nothing is emitted for the right operand. -/
theorem shift_reduction_layout (left right : Node) (st : State) (v : Int) (k : Nat)
    (hnc : is_constants (.binary_op '*' left right) = false)
    (hrc : is_constants right = true)
    (hv : evaluate_constants right = .ok v)
    (hk : power_of_2 v = some k) (hk0 : k ≠ 0) :
    (∀ f, compile_ast left st = .error f →
      compile_ast (.binary_op '*' left right) st = .error f) ∧
    (∀ b st1, compile_ast left st = .ok (b, st1) →
      compile_ast (.binary_op '*' left right) st
        = .ok (true, { st1 with out := st1.out ++ ["sal $" ++ toString k ++ ", %rdi"] })) := by
  have h := compile_ast_shift left right st v k hnc hrc hv hk hk0
  constructor
  · intro f hf; rw [h, hf]
  · intro b st1 hl; rw [h, hl]; rfl

/-- Instance of C3: `A * 8` emits the load of the slot of `A` followed by `sal $3, %rdi`. -/
theorem shift_reduction_layout_witness :
    is_constants (.binary_op '*' (.var 'A') (.num 8)) = false ∧
    compile_ast (.binary_op '*' (.var 'A') (.num 8)) State.initial
      = .ok (true, { State.initial with out := ["mov -0x08(%rbp), %rdi", "sal $3, %rdi"] }) :=
  ⟨by decide,
   (shift_reduction_layout (.var 'A') (.num 8) State.initial 8 3 (by decide) (by decide)
      (by decide) (by decide) (by decide)).2 true (emit (line_load 'A') State.initial)
      (by decide)⟩

/-- C4, as stated, fails: in `3 * 8` the right operand is constant and folds to `2^3`, but the
node is constant as a whole, so `compile_ast` emits the single load `mov $24, %rdi` and neither
the code of the left operand nor a `sal`. -/
theorem shift_any_left_counterexample :
    is_constants (.num 8) = true ∧ evaluate_constants (.num 8) = .ok (2 ^ 3) ∧
    compile_ast (.binary_op '*' (.num 3) (.num 8)) State.initial
      = .ok (true, { State.initial with out := ["mov $24, %rdi"] }) ∧
    compile_ast (.num 3) State.initial
      = .ok (true, { State.initial with out := ["mov $3, %rdi"] }) ∧
    compile_ast (.binary_op '*' (.num 3) (.num 8)) State.initial
      ≠ .ok (true, { State.initial with out := ["mov $3, %rdi", "sal $3, %rdi"] }) := by
  decide

/-- C4 (amended). For any `*` node whose left operand is not constant and whose right operand
is constant and folds to `2^k` with `k ≥ 1`, the code emitted by `compile_ast` is the code of the
left operand followed by the single line `sal $k, %rdi`; no instruction derived from the right
operand appears. -/
theorem shift_nonconstant_left (left right : Node) (st : State) (k : Nat)
    (hl : is_constants left = false)
    (hrc : is_constants right = true)
    (hv : evaluate_constants right = .ok (2 ^ k)) (hk : 1 ≤ k) :
    (∀ f, compile_ast left st = .error f →
      compile_ast (.binary_op '*' left right) st = .error f) ∧
    (∀ b st1, compile_ast left st = .ok (b, st1) →
      compile_ast (.binary_op '*' left right) st
        = .ok (true, { st1 with out := st1.out ++ ["sal $" ++ toString k ++ ", %rdi"] })) := by
  have hnc : is_constants (.binary_op '*' left right) = false := by simp [is_constants, hl]
  have h := compile_ast_shift left right st _ k hnc hrc hv (power_of_2_pow k) (by omega)
  constructor
  · intro f hf; rw [h, hf]
  · intro b st1 hl; rw [h, hl]; rfl

/-- Instance of C4 (amended): `(A + 1) * (2 * 2)` emits the code of `A + 1`, then
`sal $2, %rdi`. -/
theorem shift_nonconstant_left_witness :
    is_constants (.binary_op '+' (.var 'A') (.num 1)) = false ∧
    compile_ast (.binary_op '*' (.binary_op '+' (.var 'A') (.num 1))
        (.binary_op '*' (.num 2) (.num 2))) State.initial
      = .ok (true, { State.initial with out :=
          ["mov $1, %rdi", "push %rdi", "mov -0x08(%rbp), %rdi", "pop %r8", "add %r8, %rdi",
           "sal $2, %rdi"] }) :=
  ⟨by decide,
   (shift_nonconstant_left (.binary_op '+' (.var 'A') (.num 1))
      (.binary_op '*' (.num 2) (.num 2)) State.initial 2 (by decide) (by decide) (by decide)
      (by decide)).2 true
      { State.initial with out :=
          ["mov $1, %rdi", "push %rdi", "mov -0x08(%rbp), %rdi", "pop %r8", "add %r8, %rdi"] }
      (by decide)⟩

/-- C5. For every AST and every starting value of the two counters such that no counter wraps
around, in a completed run of `compile_ast` the ids taken by `IF` nodes, in the order in which
the nodes are entered, are strictly increasing and pairwise distinct, and likewise for `WHILE`
nodes; each of these ids has each of its label definition lines exactly once in the output, and
no label definition line (`IF_labelN:`, `IF_ELSE_labelN:`, `ENDIFN:`, `WHILE_labelN:`,
`ENDWHILE_labelN:`) occurs twice. -/
theorem label_ids_unique (node : Node) (st : State) (b : Bool) (st' : State)
    (hrun : compile_ast node st = .ok (b, st'))
    (hif : st.global_counter_if + count_if node < 2 ^ 64)
    (hwhile : st.global_counter_while + count_while node < 2 ^ 64) :
    ∃ ids_if ids_while code,
      st'.taken_if = st.taken_if ++ ids_if ∧ st'.taken_while = st.taken_while ++ ids_while ∧
      st'.out = st.out ++ code ∧
      ids_if.Pairwise (· < ·) ∧ ids_if.Nodup ∧
      ids_while.Pairwise (· < ·) ∧ ids_while.Nodup ∧
      (∀ n, n ∈ ids_if → code.count (line_if_label n) = 1 ∧
        code.count (line_if_else_label n) = 1 ∧ code.count (line_endif n) = 1) ∧
      (∀ n, n ∈ ids_while → code.count (line_while_label n) = 1 ∧
        code.count (line_endwhile n) = 1) ∧
      (∀ n, code.count (line_if_label n) ≤ 1 ∧ code.count (line_if_else_label n) ≤ 1 ∧
        code.count (line_endif n) ≤ 1 ∧ code.count (line_while_label n) ≤ 1 ∧
        code.count (line_endwhile n) ≤ 1) := by
  have adv := compile_ast_advances node st b st' hrun hif hwhile
  obtain ⟨code, hout, hcount⟩ := adv.out
  have hle : ∀ kind n, code.count (label_line kind n) ≤ 1 := by
    intro kind n
    rw [hcount]; unfold expected_count; split_ifs <;> omega
  refine ⟨_, _, code, adv.taken_if, adv.taken_while, hout,
    List.pairwise_lt_range' _ _, List.nodup_range' _ _,
    List.pairwise_lt_range' _ _, List.nodup_range' _ _, ?_, ?_, ?_⟩
  · intro n hn
    rw [List.mem_range'_1] at hn
    have h1 := hcount .if_label n
    have h2 := hcount .if_else_label n
    have h3 := hcount .endif n
    simp only [expected_count, LabelKind.of_if, if_true, if_pos hn] at h1 h2 h3
    exact ⟨h1, h2, h3⟩
  · intro n hn
    rw [List.mem_range'_1] at hn
    have h1 := hcount .while_label n
    have h2 := hcount .endwhile n
    simp only [expected_count, LabelKind.of_if, Bool.false_eq_true, if_false, if_pos hn]
      at h1 h2
    exact ⟨h1, h2⟩
  · intro n
    exact ⟨hle .if_label n, hle .if_else_label n, hle .endif n, hle .while_label n,
      hle .endwhile n⟩

/-- Instance of C5: `sample_program`, compiled by a fresh process, takes the `IF` ids 1, 2, 3
and the `WHILE` id 1. -/
theorem label_ids_unique_witness :
    compile_ast sample_program State.initial = .ok (true, sample_result) ∧
    ∃ ids_if ids_while code,
      sample_result.taken_if = State.initial.taken_if ++ ids_if ∧
      sample_result.taken_while = State.initial.taken_while ++ ids_while ∧
      sample_result.out = State.initial.out ++ code ∧
      ids_if.Pairwise (· < ·) ∧ ids_if.Nodup ∧
      ids_while.Pairwise (· < ·) ∧ ids_while.Nodup ∧
      (∀ n, n ∈ ids_if → code.count (line_if_label n) = 1 ∧
        code.count (line_if_else_label n) = 1 ∧ code.count (line_endif n) = 1) ∧
      (∀ n, n ∈ ids_while → code.count (line_while_label n) = 1 ∧
        code.count (line_endwhile n) = 1) ∧
      (∀ n, code.count (line_if_label n) ≤ 1 ∧ code.count (line_if_else_label n) ≤ 1 ∧
        code.count (line_endif n) ≤ 1 ∧ code.count (line_while_label n) ≤ 1 ∧
        code.count (line_endwhile n) ≤ 1) :=
  ⟨by decide,
   label_ids_unique sample_program State.initial true sample_result (by decide) (by decide)
     (by decide)⟩

/-- C6. For every `If` node whose condition is a `BinaryOp` with operator `=`, `>` or `<`,
with `n` the value of `++global_counter_if` at entry (`global_counter_if + 1` unless the
counter wraps), `compile_ast` does exactly this, in order: it compiles the condition; emits `jne`/`jng`/`jnl IF_ELSE_labeln` for `=`/`>`/`<` and
`IF_labeln:`; compiles the then-branch; emits `jmp ENDIFn` and `IF_ELSE_labeln:`; compiles the
else-branch when there is one (and does nothing otherwise); emits `ENDIFn:` and returns true.
The number `n` is fixed at entry, whatever the nested nodes do to the counter. -/
theorem if_layout (op : Char) (left right if_branch : Node) (else_branch : Option Node)
    (st : State) (hop : op = '=' ∨ op = '>' ∨ op = '<') :
    compile_ast (.if_ (.binary_op op left right) if_branch else_branch) st =
      (let n := size_incr st.global_counter_if
       let jump := (if op = '=' then "jne" else if op = '>' then "jng" else "jnl")
         ++ " IF_ELSE_label" ++ toString n
       match compile_ast (.binary_op op left right)
           { st with global_counter_if := n, taken_if := st.taken_if ++ [n] } with
       | .error f => .error f
       | .ok (_, st1) =>
         match compile_ast if_branch
             { st1 with out := st1.out ++ [jump, "IF_label" ++ toString n ++ ":"] } with
         | .error f => .error f
         | .ok (_, st2) =>
           let st3 : State := { st2 with out := st2.out ++
             ["jmp ENDIF" ++ toString n, "IF_ELSE_label" ++ toString n ++ ":"] }
           match else_branch with
           | none => .ok (true, { st3 with out := st3.out ++ ["ENDIF" ++ toString n ++ ":"] })
           | some else_node =>
             match compile_ast else_node st3 with
             | .error f => .error f
             | .ok (_, st4) =>
               .ok (true, { st4 with out := st4.out ++ ["ENDIF" ++ toString n ++ ":"] })) ∧
    (st.global_counter_if + 1 < 2 ^ 64 →
      size_incr st.global_counter_if = st.global_counter_if + 1) := by
  refine ⟨?_, size_incr_eq _⟩
  have hjump : if_jump_lines op (size_incr st.global_counter_if) =
      [(if op = '=' then "jne" else if op = '>' then "jng" else "jnl")
         ++ " IF_ELSE_label" ++ toString (size_incr st.global_counter_if)] := by
    rcases hop with h | h | h <;> subst h <;> rfl
  rw [compile_ast]
  simp only [condition_op, hjump, emit, emit_all, line_if_label, line_jmp_endif,
    line_if_else_label, line_endif, fmt_dec, List.append_assoc, List.cons_append,
    List.nil_append]
  cases compile_ast (.binary_op op left right) _ with
  | error f => rfl
  | ok r1 =>
    obtain ⟨b1, st1⟩ := r1
    simp only []
    cases compile_ast if_branch _ with
    | error f => rfl
    | ok r2 =>
      obtain ⟨b2, st2⟩ := r2
      cases else_branch with
      | none => simp [compile_else]
      | some else_node =>
        simp only [compile_else]
        cases compile_ast else_node _ with
        | error f => rfl
        | ok r3 => rfl

/-- Instance of C6: an `If` on `A > 0` with an inner `If` in its then-branch; the outer node
keeps the id `1` in all five places while the inner one takes `2`. -/
theorem if_layout_witness :
    ('>' = '=' ∨ '>' = '>' ∨ '>' = '<') ∧
    compile_ast (.if_ (.binary_op '>' (.var 'A') (.num 0))
        (.if_ (.binary_op '=' (.var 'B') (.num 1)) (.print (.var 'B')) none)
        (some (.print (.var 'A')))) State.initial
      = .ok (true, { State.initial with
          global_counter_if := 2, taken_if := [1, 2],
          out := ["mov $0, %rdi", "push %rdi", "mov -0x08(%rbp), %rdi", "pop %r8",
            "cmp %r8, %rdi", "jng IF_ELSE_label1", "IF_label1:",
            "mov $1, %rdi", "push %rdi", "mov -0x10(%rbp), %rdi", "pop %r8",
            "cmp %r8, %rdi", "jne IF_ELSE_label2", "IF_label2:",
            "mov -0x10(%rbp), %rdi", "call print_int", "jmp ENDIF2", "IF_ELSE_label2:",
            "ENDIF2:", "jmp ENDIF1", "IF_ELSE_label1:",
            "mov -0x08(%rbp), %rdi", "call print_int", "ENDIF1:"] }) :=
  ⟨by decide,
   (if_layout '>' (.var 'A') (.num 0)
      (.if_ (.binary_op '=' (.var 'B') (.num 1)) (.print (.var 'B')) none)
      (some (.print (.var 'A'))) State.initial (by decide)).1.trans (by decide)⟩

/-- C7. For every `While` node whose condition is a `BinaryOp` with operator `=`, `>` or `<`,
with `n` the value of `++global_counter_while` at entry (`global_counter_while + 1` unless the
counter wraps), `compile_ast` does exactly this, in order: it emits `WHILE_labeln:`; compiles the condition; emits `jne`/`jng`/`jnl ENDWHILE_labeln`
for `=`/`>`/`<`; compiles the body; emits `jmp WHILE_labeln` and `ENDWHILE_labeln:` and returns
true.  The number `n` is fixed at entry, whatever the nested nodes do to the counter. -/
theorem while_layout (op : Char) (left right body : Node) (st : State)
    (hop : op = '=' ∨ op = '>' ∨ op = '<') :
    compile_ast (.while_ (.binary_op op left right) body) st =
      (let n := size_incr st.global_counter_while
       let jump := (if op = '=' then "jne" else if op = '>' then "jng" else "jnl")
         ++ " ENDWHILE_label" ++ toString n
       match compile_ast (.binary_op op left right)
           { st with global_counter_while := n, taken_while := st.taken_while ++ [n],
                     out := st.out ++ ["WHILE_label" ++ toString n ++ ":"] } with
       | .error f => .error f
       | .ok (_, st1) =>
         match compile_ast body { st1 with out := st1.out ++ [jump] } with
         | .error f => .error f
         | .ok (_, st2) =>
           .ok (true, { st2 with out := st2.out ++
             ["jmp WHILE_label" ++ toString n, "ENDWHILE_label" ++ toString n ++ ":"] })) ∧
    (st.global_counter_while + 1 < 2 ^ 64 →
      size_incr st.global_counter_while = st.global_counter_while + 1) := by
  refine ⟨?_, size_incr_eq _⟩
  have hjump : while_jump_lines op (size_incr st.global_counter_while) =
      [(if op = '=' then "jne" else if op = '>' then "jng" else "jnl")
         ++ " ENDWHILE_label" ++ toString (size_incr st.global_counter_while)] := by
    rcases hop with h | h | h <;> subst h <;> rfl
  rw [compile_ast]
  simp only [condition_op, hjump, emit, emit_all, line_while_label, line_jmp_while,
    line_endwhile, fmt_dec, List.append_assoc, List.cons_append, List.nil_append]

/-- Instance of C7: a `While` on `A < 9` whose body is another `While`; the outer node keeps
the id `1` in all four places while the inner one takes `2`. -/
theorem while_layout_witness :
    ('<' = '=' ∨ '<' = '>' ∨ '<' = '<') ∧
    compile_ast (.while_ (.binary_op '<' (.var 'A') (.num 9))
        (.while_ (.binary_op '=' (.var 'B') (.var 'A')) (.print (.var 'B')))) State.initial
      = .ok (true, { State.initial with
          global_counter_while := 2, taken_while := [1, 2],
          out := ["WHILE_label1:", "mov $9, %rdi", "push %rdi", "mov -0x08(%rbp), %rdi",
            "pop %r8", "cmp %r8, %rdi", "jnl ENDWHILE_label1",
            "WHILE_label2:", "mov -0x08(%rbp), %rdi", "push %rdi", "mov -0x10(%rbp), %rdi",
            "pop %r8", "cmp %r8, %rdi", "jne ENDWHILE_label2",
            "mov -0x10(%rbp), %rdi", "call print_int", "jmp WHILE_label2", "ENDWHILE_label2:",
            "jmp WHILE_label1", "ENDWHILE_label1:"] }) :=
  ⟨by decide,
   (while_layout '<' (.var 'A') (.num 9)
      (.while_ (.binary_op '=' (.var 'B') (.var 'A')) (.print (.var 'B')))
      State.initial (by decide)).1.trans (by decide)⟩

/-- C8 fails on the code: `is_constants` does not look at the operator, so the comparison
`1 = 1` is folded by `compile_ast` to the load `mov $0, %rdi`, and in an `IF` on that condition
the conditional jump follows this load, with no `cmp` anywhere in the output. -/
theorem constant_comparison_is_folded :
    is_constants (.binary_op '=' (.num 1) (.num 1)) = true ∧
    compile_ast (.binary_op '=' (.num 1) (.num 1)) State.initial
      = .ok (true, { State.initial with out := ["mov $0, %rdi"] }) ∧
    compile_ast constant_condition_if State.initial
      = .ok (true, { State.initial with
          global_counter_if := 1, taken_if := [1],
          out := ["mov $0, %rdi", "jne IF_ELSE_label1", "IF_label1:", "mov $7, %rdi",
            "call print_int", "jmp ENDIF1", "IF_ELSE_label1:", "ENDIF1:"] }) := by
  decide

/-- C9. For every letter `X` in `A..Z` and every expression `E`: `compile_ast (Let X E)` does
what `compile_ast E` does and then emits exactly one store `mov %rdi, -0xHH(%rbp)`;
`compile_ast (Variable X)` emits exactly one load `mov -0xHH(%rbp), %rdi` from the same frame
address, where `HH` is the offset `8 * (index of X + 1)` in hexadecimal; two distinct letters have
different offsets; every offset is a multiple of 8 between 8 and 208. -/
theorem let_var_slot (X : Char) (hX : X ∈ letters) (E : Node) (st : State) :
    compile_ast (.let_ X E) st =
      (match compile_ast E st with
       | .error f => .error f
       | .ok (_, st1) => .ok (true, { st1 with out := st1.out ++
           ["mov %rdi, -0x" ++ hex2 (8 * (letter_index X + 1)) ++ "(%rbp)"] })) ∧
    compile_ast (.var X) st = .ok (true, { st with out := st.out ++
      ["mov -0x" ++ hex2 (8 * (letter_index X + 1)) ++ "(%rbp), %rdi"] }) ∧
    (∀ Y ∈ letters, Y ≠ X → 8 * (letter_index Y + 1) ≠ 8 * (letter_index X + 1) ∧
      hex2 (8 * (letter_index Y + 1)) ≠ hex2 (8 * (letter_index X + 1))) ∧
    8 ∣ 8 * (letter_index X + 1) ∧ 8 ≤ 8 * (letter_index X + 1) ∧
    8 * (letter_index X + 1) ≤ 208 := by
  obtain ⟨hload, hstore⟩ := slot_lines_of_letter X hX
  refine ⟨?_, ?_, ?_, frame_offset_range X hX⟩
  · rw [compile_ast, hstore]
    cases compile_ast E st with
    | error f => rfl
    | ok r => rfl
  · rw [compile_ast, hload]; rfl
  · intro Y hY hne
    exact frame_offset_injective Y hY X hX hne

/-- Instance of C9: `Let(C, 5)` stores to `-0x18(%rbp)`, the address `Variable(C)` loads. -/
theorem let_var_slot_witness :
    'C' ∈ letters ∧
    compile_ast (.let_ 'C' (.num 5)) State.initial
      = .ok (true, { State.initial with out := ["mov $5, %rdi", "mov %rdi, -0x18(%rbp)"] }) ∧
    compile_ast (.var 'C') State.initial
      = .ok (true, { State.initial with out := ["mov -0x18(%rbp), %rdi"] }) :=
  ⟨by decide,
   (let_var_slot 'C' (by decide) (.num 5) State.initial).1.trans (by decide),
   (let_var_slot 'C' (by decide) (.num 5) State.initial).2.1.trans (by decide)⟩

/-- C10, as stated, fails: `1 / 0` is a node of the recognised type `BINARY_OP`, but the run
of `compile_ast` on it stops with an arithmetic fault in the constant folder and returns
nothing, in particular not true. -/
theorem recognised_node_counterexample :
    recognised one_over_zero = true ∧
    compile_ast one_over_zero State.initial = .error Fault.arithmetic ∧
    ¬ ∃ st', compile_ast one_over_zero State.initial = .ok (true, st') := by
  have h : compile_ast one_over_zero State.initial = .error Fault.arithmetic := by decide
  refine ⟨by decide, h, ?_⟩
  rintro ⟨st', h'⟩
  rw [h] at h'
  cases h'

/-- C10 (amended). `compile_ast` returns false exactly when the node it is called on has a type
that is none of the eight recognised ones, and then it has emitted nothing and left both
counters unchanged.  For a node of a recognised type it returns true unless the run is stopped
by a fault (a division fault in the constant folder, or an `IF`/`WHILE` whose condition is not a
`BINARY_OP` node); on a tree where no such fault can occur it does return true. -/
theorem failure_result_iff_unrecognised (node : Node) (st : State) :
    (∀ st', compile_ast node st = .ok (false, st') ↔ (recognised node = false ∧ st' = st)) ∧
    (recognised node = true →
      (∃ st', compile_ast node st = .ok (true, st')) ∨ (∃ f, compile_ast node st = .error f)) ∧
    (recognised node = true → fault_free node = true →
      ∃ st', compile_ast node st = .ok (true, st')) := by
  refine ⟨?_, ?_, ?_⟩
  · intro st'
    constructor
    · intro h
      by_cases hr : recognised node = true
      · exact absurd (result_of_recognised node st false st' h hr) (by decide)
      · cases node <;> simp [recognised] at hr
        rw [compile_ast] at h; cases h
        exact ⟨rfl, rfl⟩
    · rintro ⟨hr, rfl⟩
      cases node <;> simp [recognised] at hr
      rfl
  · intro hr
    cases h : compile_ast node st with
    | error f => exact Or.inr ⟨f, rfl⟩
    | ok r =>
      obtain ⟨b, st'⟩ := r
      have hb := result_of_recognised node st b st' h hr
      subst hb
      exact Or.inl ⟨st', rfl⟩
  · intro hr hf
    obtain ⟨b, st', h⟩ := fault_free_returns node hf st
    have hb := result_of_recognised node st b st' h hr
    subst hb
    exact ⟨st', h⟩

/-- Instance of C10 (amended): `sample_program` is of a recognised type and free of faults, and
`compile_ast` returns true on it; on a node of an unknown type it returns false and changes
nothing. -/
theorem failure_result_iff_unrecognised_witness :
    recognised sample_program = true ∧ fault_free sample_program = true ∧
    (∃ st', compile_ast sample_program State.initial = .ok (true, st')) ∧
    (compile_ast (.other 99) State.initial = .ok (false, State.initial)) :=
  ⟨by decide, by decide,
   (failure_result_iff_unrecognised sample_program State.initial).2.2 (by decide) (by decide),
   ((failure_result_iff_unrecognised (.other 99) State.initial).1 State.initial).mpr
     ⟨by decide, rfl⟩⟩

/-- The general path also covers a right operand whose fold stops with a fault: both the shift
test and the compilation of that operand stop with the same fault. -/
theorem compile_ast_not_eligible (op : Char) (left right : Node) (st : State)
    (hnc : is_constants (.binary_op op left right) = false)
    (hne : shift_eligible op right = false) :
    compile_ast (.binary_op op left right) st =
      match compile_ast right st with
      | .error f => .error f
      | .ok (_, st2) =>
        match compile_ast left (emit "push %rdi" st2) with
        | .error f => .error f
        | .ok (_, st3) => .ok (true, emit_all (operator_lines op) (emit "pop %r8" st3)) := by
  by_cases hop : op = '*'
  · by_cases hr : is_constants right = true
    · obtain ⟨f, hv⟩ | ⟨v, hv⟩ : (∃ f, evaluate_constants right = .error f) ∨
          (∃ v, evaluate_constants right = .ok v) := by
        cases evaluate_constants right <;> simp
      · rw [compile_ast_constant_fault right st f hr hv, compile_ast,
          if_neg (by simp [hnc])]
        simp [hop, hr, hv]
      · obtain ⟨k, hk⟩ := power_of_2_total v
        have hk0 : k = 0 := by
          simpa [shift_eligible, hop, hr, hv, hk] using hne
        subst hk0
        exact compile_ast_general op left right st hnc (Or.inr (Or.inr ⟨v, hv, hk⟩))
    · exact compile_ast_general op left right st hnc (Or.inr (Or.inl (by simpa using hr)))
  · exact compile_ast_general op left right st hnc (Or.inl hop)

/-- C12. Division by zero during constant folding is a fault and never a value: for every
constant `BinaryOp` tree that contains a `/` node whose right operand evaluates to `0`,
`evaluate_constants` stops with an arithmetic fault and returns no integer, `compile_ast` of the
tree stops with the same fault, and so returns nothing and emits no `mov $..., %rdi` line. -/
theorem zero_division_faults (op : Char) (left right : Node) (st : State)
    (hc : is_constants (.binary_op op left right) = true)
    (hz : has_zero_division (.binary_op op left right) = true) :
    evaluate_constants (.binary_op op left right) = .error Fault.arithmetic ∧
    (∀ v, evaluate_constants (.binary_op op left right) ≠ .ok v) ∧
    compile_ast (.binary_op op left right) st = .error Fault.arithmetic ∧
    (∀ b st', compile_ast (.binary_op op left right) st ≠ .ok (b, st')) := by
  have he := (evaluate_constants_zero_division _ hc).2 hz
  have hcomp := compile_ast_constant_fault _ st _ hc he
  refine ⟨he, ?_, hcomp, ?_⟩
  · intro v hv; rw [he] at hv; cases hv
  · intro b st' h; rw [hcomp] at h; cases h

/-- Instance of C12: `(2 * 3) + (4 / (1 - 1))` is constant, holds a division by a right operand
of value `0`, and `compile_ast` stops on it with an arithmetic fault. -/
theorem zero_division_faults_witness :
    is_constants zero_division_tree = true ∧ has_zero_division zero_division_tree = true ∧
    compile_ast zero_division_tree State.initial = .error Fault.arithmetic :=
  ⟨by decide, by decide,
   (zero_division_faults '+' (.binary_op '*' (.num 2) (.num 3))
      (.binary_op '/' (.num 4) (.binary_op '-' (.num 1) (.num 1))) State.initial
      (by decide) (by decide)).2.2.1⟩

/-- C13. For every `BinaryOp` node that is neither constant nor eligible for the shift
reduction, `compile_ast` does exactly this, in order: it compiles the RIGHT operand; emits
`push %rdi`; compiles the LEFT operand; emits `pop %r8` and then the instructions of the
operator: `add %r8, %rdi` for `+`, `sub %r8, %rdi` for `-`, `imul %r8, %rdi` for `*`, the four
lines `mov %rdi, %rax`, `cqto`, `idiv %r8`, `mov %rax, %rdi` for `/`, and `cmp %r8, %rdi` for any
other operator; then it returns true. -/
theorem general_case_layout (op : Char) (left right : Node) (st : State)
    (hnc : is_constants (.binary_op op left right) = false)
    (hne : shift_eligible op right = false) :
    compile_ast (.binary_op op left right) st =
      match compile_ast right st with
      | .error f => .error f
      | .ok (_, st2) =>
        match compile_ast left { st2 with out := st2.out ++ ["push %rdi"] } with
        | .error f => .error f
        | .ok (_, st3) =>
          .ok (true, { st3 with out := st3.out ++ ["pop %r8"] ++
            (if op = '+' then ["add %r8, %rdi"]
             else if op = '-' then ["sub %r8, %rdi"]
             else if op = '*' then ["imul %r8, %rdi"]
             else if op = '/' then ["mov %rdi, %rax", "cqto", "idiv %r8", "mov %rax, %rdi"]
             else ["cmp %r8, %rdi"]) }) := by
  rw [compile_ast_not_eligible op left right st hnc hne]
  rfl

/-- Instance of C13: `A - (B / 2)`; the right operand `B / 2` is compiled first and pushed,
the left value ends in `%rdi` and the right one in `%r8`. -/
theorem general_case_layout_witness :
    is_constants (.binary_op '-' (.var 'A') (.binary_op '/' (.var 'B') (.num 2))) = false ∧
    shift_eligible '-' (.binary_op '/' (.var 'B') (.num 2)) = false ∧
    compile_ast (.binary_op '-' (.var 'A') (.binary_op '/' (.var 'B') (.num 2))) State.initial
      = .ok (true, { State.initial with out :=
          ["mov $2, %rdi", "push %rdi", "mov -0x10(%rbp), %rdi", "pop %r8",
           "mov %rdi, %rax", "cqto", "idiv %r8", "mov %rax, %rdi",
           "push %rdi", "mov -0x08(%rbp), %rdi", "pop %r8", "sub %r8, %rdi"] }) :=
  ⟨by decide, by decide,
   (general_case_layout '-' (.var 'A') (.binary_op '/' (.var 'B') (.num 2)) State.initial
      (by decide) (by decide)).trans (by decide)⟩

/-- C14. Multiplying by 1 never triggers the shift, and a returned `0` is never used as a shift
amount: for every non-constant left operand `L` and constant right operand `R` whose value `v`
has `power_of_2 v = 0` (as have `1`, `0`, the negative numbers and the numbers that are no power
of two), `compile_ast (L * R)` emits the load of `v` and `push %rdi`, compiles `L`, and emits
`pop %r8` and `imul %r8, %rdi`; it emits no `sal` of its own. -/
theorem multiply_without_shift (left right : Node) (st : State) (v : Int)
    (hl : is_constants left = false) (hrc : is_constants right = true)
    (hv : evaluate_constants right = .ok v) (hk : power_of_2 v = some 0) :
    compile_ast (.binary_op '*' left right) st =
      (match compile_ast left
          { st with out := st.out ++ ["mov $" ++ toString (to_u64 v) ++ ", %rdi", "push %rdi"] }
        with
        | .error f => .error f
        | .ok (_, st3) =>
          .ok (true, { st3 with out := st3.out ++ ["pop %r8", "imul %r8, %rdi"] })) ∧
    power_of_2 1 = some 0 ∧ power_of_2 0 = some 0 ∧
    (∀ w : Int, w < 0 → power_of_2 w = some 0) := by
  have hnc : is_constants (.binary_op '*' left right) = false := by simp [is_constants, hl]
  refine ⟨?_, by decide, by decide, power_of_2_negative⟩
  rw [compile_ast_general '*' left right st hnc (Or.inr (Or.inr ⟨v, hv, hk⟩)),
    compile_ast_constant_value right st v hrc hv]
  simp only [emit, emit_all, line_mov_imm, fmt_dec, operator_lines, List.append_assoc,
    List.cons_append, List.nil_append]
  rfl

/-- Instance of C14: `A * 1` is compiled with `imul`, not with a shift. -/
theorem multiply_without_shift_witness :
    is_constants (.var 'A') = false ∧ power_of_2 1 = some 0 ∧
    compile_ast (.binary_op '*' (.var 'A') (.num 1)) State.initial
      = .ok (true, { State.initial with out :=
          ["mov $1, %rdi", "push %rdi", "mov -0x08(%rbp), %rdi", "pop %r8",
           "imul %r8, %rdi"] }) :=
  ⟨by decide, by decide,
   (multiply_without_shift (.var 'A') (.num 1) State.initial 1 (by decide) (by decide)
      (by decide) (by decide)).1.trans (by decide)⟩

/-- C15. The strength reduction preserves the product: for every 64-bit value `x` and every
64-bit constant `c` with `k = power_of_2 c ≠ 0`, the content of `%rdi` after `sal $k, %rdi` (the
bits of `x` shifted left by `k`, modulo `2^64`) is the content after `imul %r8, %rdi` with `c` in
`%r8`, and both are the bit pattern of `x * c` under 64-bit wrap-around multiplication. -/
theorem shift_preserves_product (x c : Int) (k : Nat) (_hx : in_int64 x) (hc : in_int64 c)
    (hk : power_of_2 c = some k) (hk0 : k ≠ 0) :
    sal64 k (to_u64 x) = imul64 (to_u64 c) (to_u64 x) ∧
    sal64 k (to_u64 x) = to_u64 (wrap64 (x * c)) := by
  have hc2 : c = 2 ^ k := power_of_2_sound c k hk hk0
  have hk62 : k ≤ 62 := by
    by_contra hlt
    have h63 : (2 : Int) ^ 63 ≤ 2 ^ k := pow_le_pow_right₀ (by norm_num) (by omega)
    unfold in_int64 INT64_MAX at hc
    omega
  have hlt : (2 : Nat) ^ k < 2 ^ 64 := Nat.pow_lt_pow_right (by norm_num) (by omega)
  have hcu : to_u64 c = 2 ^ k := by
    unfold to_u64
    rw [hc2]
    have : ((2 : Int) ^ k) % 2 ^ 64 = ((2 ^ k : Nat) : Int) := by
      have h1 : ((2 : Int) ^ k) = ((2 ^ k : Nat) : Int) := by push_cast; rfl
      rw [h1]
      have h2 : ((2 : Int) ^ 64) = ((2 ^ 64 : Nat) : Int) := by norm_num
      rw [h2, ← Int.ofNat_emod, Nat.mod_eq_of_lt hlt]
    rw [this, Int.toNat_ofNat]
  refine ⟨?_, ?_⟩
  · unfold sal64 imul64
    rw [hcu, Nat.shiftLeft_eq]
  · unfold sal64
    rw [to_u64_wrap64, Nat.shiftLeft_eq, hc2]
    unfold to_u64
    have hnn : (0 : Int) ≤ x % 2 ^ 64 := Int.emod_nonneg _ (by norm_num)
    have hnn2 : (0 : Int) ≤ (x * 2 ^ k) % 2 ^ 64 := Int.emod_nonneg _ (by norm_num)
    apply Int.ofNat_inj.mp
    rw [Int.toNat_of_nonneg hnn2]
    push_cast
    rw [Int.toNat_of_nonneg (a := x % 18446744073709551616) (by omega), Int.mul_emod,
      Int.emod_emod, ← Int.mul_emod]

/-- Instance of C15: with `x = -3` and `c = 8`, `sal $3` leaves the bit pattern of `-24`. -/
theorem shift_preserves_product_witness :
    in_int64 (-3) ∧ in_int64 8 ∧ power_of_2 8 = some 3 ∧
    sal64 3 (to_u64 (-3)) = to_u64 (-24) ∧ imul64 (to_u64 8) (to_u64 (-3)) = to_u64 (-24) :=
  ⟨by decide, by decide, by decide,
   (shift_preserves_product (-3) 8 3 (by decide) (by decide) (by decide) (by decide)).2.trans
     (by decide),
   (shift_preserves_product (-3) 8 3 (by decide) (by decide) (by decide) (by decide)).1.symm.trans
     ((shift_preserves_product (-3) 8 3 (by decide) (by decide) (by decide)
       (by decide)).2.trans (by decide))⟩

/-- C16. `power_of_2` terminates on every input and needs no precondition: it returns on every
integer; on every nonzero 64-bit signed value, `INT64_MIN` included, the loop returns within 64
evaluations of its test, that is after at most 63 halvings, and with the result of `power_of_2`;
on a negative value that result is `0`. -/
theorem power_of_2_terminates :
    (∀ v : Int, ∃ r, power_of_2 v = some r) ∧
    (∀ v : Int, in_int64 v → v ≠ 0 →
      ∃ r, power_of_2_loop 64 v 0 = some r ∧ power_of_2 v = some r) ∧
    (∀ v : Int, v < 0 → power_of_2 v = some 0) ∧
    power_of_2 INT64_MIN = some 0 := by
  refine ⟨power_of_2_total, ?_, power_of_2_negative, by decide⟩
  intro v hv h0
  have habs : v.natAbs < 2 ^ 64 := by
    unfold in_int64 INT64_MIN INT64_MAX at hv; omega
  obtain ⟨r, hr⟩ := power_of_2_loop_bound 64 v 0 h0 habs
  refine ⟨r, hr, ?_⟩
  obtain ⟨r', hr'⟩ := power_of_2_total v
  have hr'' := hr'
  unfold power_of_2 at hr''
  rw [if_pos h0] at hr''
  have e1 := power_of_2_loop_mono 64 v 0 r hr v.natAbs
  have e2 := power_of_2_loop_mono v.natAbs v 0 r' hr'' 64
  rw [Nat.add_comm] at e2
  rw [e1] at e2
  rw [hr', ← Option.some.inj e2]

/-- Instance of C16: on `INT64_MIN` the loop returns within 64 evaluations of its test. -/
theorem power_of_2_terminates_witness :
    in_int64 INT64_MIN ∧ INT64_MIN ≠ 0 ∧
    ∃ r, power_of_2_loop 64 INT64_MIN 0 = some r ∧ power_of_2 INT64_MIN = some r :=
  ⟨by decide, by decide, power_of_2_terminates.2.1 INT64_MIN (by decide) (by decide)⟩

/-- C20. Immediates are rendered as unsigned 64-bit decimals: for every 64-bit signed value
`v`, `compile_ast (NumberLiteral v)` emits exactly the one line `mov $u, %rdi` with `u` the
decimal text of `v mod 2^64`; a folded constant `BinaryOp` is rendered the same way from its
value; the line holds no minus sign, and `u` is below `2^64` and denotes the 64-bit pattern of
`v` (reducing it to `int64_t` gives `v` back). -/
theorem immediate_rendering (v : Int) (st : State) (hv : in_int64 v) :
    compile_ast (.num v) st = .ok (true, { st with out := st.out ++
      ["mov $" ++ toString ((v % 2 ^ 64).toNat) ++ ", %rdi"] }) ∧
    (∀ op left right c, is_constants (.binary_op op left right) = true →
      evaluate_constants (.binary_op op left right) = .ok c →
      compile_ast (.binary_op op left right) st = .ok (true, { st with out := st.out ++
        ["mov $" ++ toString ((c % 2 ^ 64).toNat) ++ ", %rdi"] })) ∧
    (∀ c : Int, '-' ∉ ("mov $" ++ toString ((c % 2 ^ 64).toNat) ++ ", %rdi").data) ∧
    (v % 2 ^ 64).toNat < 2 ^ 64 ∧ wrap64 ((v % 2 ^ 64).toNat) = v := by
  refine ⟨rfl, ?_, line_mov_imm_no_minus, ?_, ?_⟩
  · intro op left right c hc he
    exact compile_ast_constant op left right st c hc he
  · omega
  · unfold in_int64 INT64_MIN INT64_MAX at hv
    unfold wrap64
    omega

/-- Instance of C20: `5` gives `mov $5, %rdi` and `-1` gives
`mov $18446744073709551615, %rdi`. -/
theorem immediate_rendering_witness :
    in_int64 (-1) ∧ in_int64 5 ∧
    compile_ast (.num (-1)) State.initial
      = .ok (true, { State.initial with out := ["mov $18446744073709551615, %rdi"] }) ∧
    compile_ast (.num 5) State.initial
      = .ok (true, { State.initial with out := ["mov $5, %rdi"] }) :=
  ⟨by decide, by decide,
   (immediate_rendering (-1) State.initial (by decide)).1.trans (by decide),
   (immediate_rendering 5 State.initial (by decide)).1.trans (by decide)⟩

/-- C11, as stated, fails: in `Print(other)` the expression has an unrecognised type, yet
`compile_ast` of the root returns true; it discards the false returned for the expression and
emits the call. -/
theorem descendant_failure_counterexample :
    recognised (.print (.other 42)) = true ∧ contains_other (.print (.other 42)) = true ∧
    compile_ast (.other 42) State.initial = .ok (false, State.initial) ∧
    compile_ast (.print (.other 42)) State.initial
      = .ok (true, { State.initial with out := ["call print_int"] }) ∧
    ¬ ∃ st', compile_ast (.print (.other 42)) State.initial = .ok (false, st') := by
  refine ⟨by decide, by decide, by decide, by decide, ?_⟩
  rintro ⟨st', h⟩
  have h2 : compile_ast (.print (.other 42)) State.initial
      = .ok (true, { State.initial with out := ["call print_int"] }) := by decide
  rw [h2] at h
  cases h

/-- C11 (amended). A failure of a descendant is not reported to the caller: for every AST whose
root has a recognised type and in which some descendant has an unrecognised type, `compile_ast`
of the root returns true whenever the run completes, and the run does complete on every tree
where no fault can occur; the call on the unrecognised node itself returns false and changes
nothing. -/
theorem descendant_failure_swallowed (node : Node) (st : State)
    (hr : recognised node = true) (_hd : contains_other node = true) :
    (∀ b st', compile_ast node st = .ok (b, st') → b = true) ∧
    (fault_free node = true → ∃ st', compile_ast node st = .ok (true, st')) ∧
    (∀ type s, compile_ast (.other type) s = .ok (false, s)) := by
  refine ⟨fun b st' h => result_of_recognised node st b st' h hr, ?_, fun _ _ => rfl⟩
  intro hf
  obtain ⟨b, st', h⟩ := fault_free_returns node hf st
  have hb := result_of_recognised node st b st' h hr
  subst hb
  exact ⟨st', h⟩

/-- Instance of C11 (amended): a sequence whose second statement prints a node of an
unrecognised type is compiled to the end and `compile_ast` returns true. -/
theorem descendant_failure_swallowed_witness :
    recognised swallowing_program = true ∧ contains_other swallowing_program = true ∧
    fault_free swallowing_program = true ∧
    (∃ st', compile_ast swallowing_program State.initial = .ok (true, st')) ∧
    compile_ast swallowing_program State.initial
      = .ok (true, { State.initial with out :=
          ["mov $1, %rdi", "mov %rdi, -0x08(%rbp)", "call print_int",
           "mov -0x08(%rbp), %rdi", "call print_int"] }) :=
  ⟨by decide, by decide, by decide,
   (descendant_failure_swallowed swallowing_program State.initial (by decide)
      (by decide)).2.1 (by decide),
   by decide⟩

/-- C17. For every AST, a completed run of `compile_ast` advances `global_counter_if` by exactly
the number of `IF` nodes in the tree and `global_counter_while` by exactly the number of `WHILE`
nodes (in `size_t` arithmetic, so modulo `2^64`), and the ids taken are the successive counter
values in the order the nodes are entered, the root of an `IF` or `WHILE` tree taking the first
one, before any node nested in it; without wrap-around the ids are `c + 1, c + 2, ...`.  The
constant-fold and shift paths skip no `IF`/`WHILE` node: a constant tree contains none. -/
theorem counters_advance (node : Node) (st : State) (b : Bool) (st' : State)
    (hrun : compile_ast node st = .ok (b, st'))
    (hi : st.global_counter_if < 2 ^ 64) (hw : st.global_counter_while < 2 ^ 64) :
    st'.global_counter_if = (st.global_counter_if + count_if node) % 2 ^ 64 ∧
    st'.global_counter_while = (st.global_counter_while + count_while node) % 2 ^ 64 ∧
    st'.taken_if = st.taken_if ++
      (List.range (count_if node)).map (fun i => (st.global_counter_if + 1 + i) % 2 ^ 64) ∧
    st'.taken_while = st.taken_while ++
      (List.range (count_while node)).map
        (fun i => (st.global_counter_while + 1 + i) % 2 ^ 64) ∧
    (st.global_counter_if + count_if node < 2 ^ 64 →
      st'.global_counter_if = st.global_counter_if + count_if node ∧
      st'.taken_if = st.taken_if ++ List.range' (st.global_counter_if + 1) (count_if node)) ∧
    (st.global_counter_while + count_while node < 2 ^ 64 →
      st'.global_counter_while = st.global_counter_while + count_while node ∧
      st'.taken_while
        = st.taken_while ++ List.range' (st.global_counter_while + 1) (count_while node)) ∧
    (∀ condition if_branch else_branch, node = .if_ condition if_branch else_branch →
      st'.out.getLast? = some (line_endif ((st.global_counter_if + 1) % 2 ^ 64))) ∧
    (∀ condition body, node = .while_ condition body →
      st'.out.getLast? = some (line_endwhile ((st.global_counter_while + 1) % 2 ^ 64))) ∧
    (∀ t, is_constants t = true → count_if t = 0 ∧ count_while t = 0) := by
  obtain ⟨c1, c2, c3, c4⟩ := run_counts (run_of_compile_ast node st b st' hrun) hi hw
  have hlist : ∀ c k : Nat, c + k < 2 ^ 64 →
      (List.range k).map (fun i => (c + 1 + i) % 2 ^ 64) = List.range' (c + 1) k := by
    intro c k hck
    rw [List.range'_eq_map_range]
    apply List.map_congr_left
    intro i hik
    rw [List.mem_range] at hik
    exact Nat.mod_eq_of_lt (by omega)
  refine ⟨c1, c2, c3, c4, ?_, ?_, ?_, ?_, count_of_is_constants⟩
  · intro hno
    exact ⟨by rw [c1, Nat.mod_eq_of_lt hno], by rw [c3, hlist _ _ hno]⟩
  · intro hno
    exact ⟨by rw [c2, Nat.mod_eq_of_lt hno], by rw [c4, hlist _ _ hno]⟩
  · rintro c t e rfl
    obtain ⟨-, b1, st1, operation, b2, st3, st5, -, -, -, -, rfl⟩ :=
      compile_ast_if_inv _ _ _ _ _ _ hrun
    simp [emit, size_incr]
  · rintro c body rfl
    obtain ⟨-, b1, st1, operation, b2, st2, -, -, -, rfl⟩ :=
      compile_ast_while_inv _ _ _ _ _ hrun
    simp [emit, size_incr]

/-- Instance of C17: `sample_program` has three `IF` nodes and one `WHILE` node; compiled by a
fresh process it leaves the counters at 3 and 1, the ids taken being 1, 2, 3 and 1. -/
theorem counters_advance_witness :
    compile_ast sample_program State.initial = .ok (true, sample_result) ∧
    count_if sample_program = 3 ∧ count_while sample_program = 1 ∧
    sample_result.global_counter_if = 3 ∧ sample_result.global_counter_while = 1 ∧
    sample_result.taken_if = [1, 2, 3] ∧ sample_result.taken_while = [1] :=
  ⟨by decide, by decide, by decide,
   (counters_advance sample_program State.initial true sample_result (by decide) (by decide)
      (by decide)).1.trans (by decide),
   (counters_advance sample_program State.initial true sample_result (by decide) (by decide)
      (by decide)).2.1.trans (by decide),
   (counters_advance sample_program State.initial true sample_result (by decide) (by decide)
      (by decide)).2.2.1.trans (by decide),
   (counters_advance sample_program State.initial true sample_result (by decide) (by decide)
      (by decide)).2.2.2.1.trans (by decide)⟩

/-- C18. The emitted code is stack-balanced: for every AST, the output of a completed run of
`compile_ast` contains exactly as many `push %rdi` lines as `pop %r8` lines, and in every
initial part of the output the number of pushes is at least the number of pops. -/
theorem stack_balanced (node : Node) (st : State) (b : Bool) (st' : State)
    (hrun : compile_ast node st = .ok (b, st')) :
    ∃ code, st'.out = st.out ++ code ∧
      code.count "push %rdi" = code.count "pop %r8" ∧
      ∀ n, (code.take n).count "pop %r8" ≤ (code.take n).count "push %rdi" := by
  obtain ⟨code, hout, hclosed⟩ := run_closed (run_of_compile_ast node st b st' hrun)
  obtain ⟨hcount, hpre⟩ := depth_after_counts code 0 0 (hclosed.1 0)
  exact ⟨code, hout, by omega, fun n => by have := hpre n; omega⟩

/-- Instance of C18: the output of `sample_program`, with four pushes and four pops. -/
theorem stack_balanced_witness :
    compile_ast sample_program State.initial = .ok (true, sample_result) ∧
    sample_result.out.count "push %rdi" = 4 ∧
    ∃ code, sample_result.out = State.initial.out ++ code ∧
      code.count "push %rdi" = code.count "pop %r8" ∧
      ∀ n, (code.take n).count "pop %r8" ≤ (code.take n).count "push %rdi" :=
  ⟨by decide, by decide,
   stack_balanced sample_program State.initial true sample_result (by decide)⟩

/-- C19. The emitted code is closed under its jumps: for every AST, every label named by a jump
line in the output of a completed run of `compile_ast` is defined by a label line of the same
output (`IF_ELSE_labelN:` for `jne`/`jng`/`jnl IF_ELSE_labelN`, `ENDIFN:` for `jmp ENDIFN`,
`ENDWHILE_labelN:` for `jne`/`jng`/`jnl ENDWHILE_labelN`, `WHILE_labelN:` for
`jmp WHILE_labelN`), and no jump names an `IF_labelN` label. -/
theorem jump_targets_defined (node : Node) (st : State) (b : Bool) (st' : State)
    (hrun : compile_ast node st = .ok (b, st')) :
    ∃ code, st'.out = st.out ++ code ∧
      (∀ line, line ∈ code → ∀ target, jump_target line = some target →
        (target ++ ":") ∈ code ∧ ∀ m : Nat, target ≠ "IF_label" ++ toString m) ∧
      (∀ n,
        (line_jne_if n ∈ code ∨ line_jng_if n ∈ code ∨ line_jnl_if n ∈ code →
          line_if_else_label n ∈ code) ∧
        (line_jmp_endif n ∈ code → line_endif n ∈ code) ∧
        (line_jne_while n ∈ code ∨ line_jng_while n ∈ code ∨ line_jnl_while n ∈ code →
          line_endwhile n ∈ code) ∧
        (line_jmp_while n ∈ code → line_while_label n ∈ code)) := by
  obtain ⟨code, hout, hclosed⟩ := run_closed (run_of_compile_ast node st b st' hrun)
  refine ⟨code, hout, hclosed.2, ?_⟩
  intro n
  refine ⟨?_, ?_, ?_, ?_⟩
  · rintro (h | h | h)
    · exact (hclosed.2 _ h ("IF_ELSE_label" ++ fmt_dec n) rfl).1
    · exact (hclosed.2 _ h ("IF_ELSE_label" ++ fmt_dec n) rfl).1
    · exact (hclosed.2 _ h ("IF_ELSE_label" ++ fmt_dec n) rfl).1
  · intro h
    exact (hclosed.2 _ h ("ENDIF" ++ fmt_dec n) rfl).1
  · rintro (h | h | h)
    · exact (hclosed.2 _ h ("ENDWHILE_label" ++ fmt_dec n) rfl).1
    · exact (hclosed.2 _ h ("ENDWHILE_label" ++ fmt_dec n) rfl).1
    · exact (hclosed.2 _ h ("ENDWHILE_label" ++ fmt_dec n) rfl).1
  · intro h
    exact (hclosed.2 _ h ("WHILE_label" ++ fmt_dec n) rfl).1

/-- Instance of C19: in the output of `sample_program` the jump `jnl ENDWHILE_label1` occurs
and so does the definition `ENDWHILE_label1:`. -/
theorem jump_targets_defined_witness :
    compile_ast sample_program State.initial = .ok (true, sample_result) ∧
    jump_target "jnl ENDWHILE_label1" = some "ENDWHILE_label1" ∧
    "jnl ENDWHILE_label1" ∈ sample_result.out ∧
    ∃ code, sample_result.out = State.initial.out ++ code ∧
      (∀ line, line ∈ code → ∀ target, jump_target line = some target →
        (target ++ ":") ∈ code ∧ ∀ m : Nat, target ≠ "IF_label" ++ toString m) ∧
      (∀ n,
        (line_jne_if n ∈ code ∨ line_jng_if n ∈ code ∨ line_jnl_if n ∈ code →
          line_if_else_label n ∈ code) ∧
        (line_jmp_endif n ∈ code → line_endif n ∈ code) ∧
        (line_jne_while n ∈ code ∨ line_jng_while n ∈ code ∨ line_jnl_while n ∈ code →
          line_endwhile n ∈ code) ∧
        (line_jmp_while n ∈ code → line_while_label n ∈ code)) :=
  ⟨by decide, by decide, by decide,
   jump_targets_defined sample_program State.initial true sample_result (by decide)⟩

end TeenyBasic
